import Mathlib

/-!
# Verification of the Cloudflare DNS mapper core pipeline

Shallow embedding of `src/cloudflare_dns_mapper.py`: the hierarchy
construction (`build_hierarchy`), root finding (`find_root_records`),
re-rooting and rendering (`generate_mindmap` / `write_hierarchy`).
Python dicts are modelled as insertion-ordered association lists,
Python sets as lists used only through membership, and the recursive
renderer is given explicit fuel (the pipeline passes enough fuel, and
fuel-independence is proved below).
-/

/-- One DNS record as the pipeline consumes it: `name`, `type`, `content`. -/
structure DNSRecord where
  name : String
  type : String
  content : String
deriving DecidableEq, Repr

/-- Python `s.lower()` (character-wise lowercasing). -/
def pyLower (s : String) : String :=
  String.mk (s.data.map Char.toLower)

/-- Python `s.strip()`: remove leading and trailing whitespace. -/
def pyStrip (s : String) : String :=
  String.mk (((s.data.dropWhile Char.isWhitespace).reverse.dropWhile
    Char.isWhitespace).reverse)

/-- Python `s.rstrip('.')`: remove every trailing `'.'`. -/
def rstripDots (s : String) : String :=
  String.mk ((s.data.reverse.dropWhile (fun c => c = '.')).reverse)

/-- The normalization `name.lower().strip().rstrip('.')` used in
`build_hierarchy` and in the re-rooting loop of `generate_mindmap`. -/
def pyNormalize (s : String) : String :=
  rstripDots (pyStrip (pyLower s))

/-- The normalization `name.lower().rstrip('.')` used in
`find_root_records` (note: no whitespace strip). -/
def rootNameNormalize (s : String) : String :=
  rstripDots (pyLower s)

/-- Helper for `pySplit`: walk the characters, accumulating the current
token reversed. -/
def pySplitAux : List Char → List Char → List String
  | [], acc => if acc.isEmpty then [] else [String.mk acc.reverse]
  | c :: rest, acc =>
      if c.isWhitespace then
        if acc.isEmpty then pySplitAux rest []
        else String.mk acc.reverse :: pySplitAux rest []
      else pySplitAux rest (c :: acc)

/-- Python `s.split()`: split on whitespace runs, dropping empty pieces. -/
def pySplit (s : String) : List String :=
  pySplitAux s.data []

/-- Association-list lookup (Python `d[k]` / `d.get(k)`). -/
def alistLookup {α : Type} : List (String × α) → String → Option α
  | [], _ => none
  | (k', v) :: rest, k => if k' = k then some v else alistLookup rest k

/-- Python `k in d`. -/
def alistContains {α : Type} (m : List (String × α)) (k : String) : Bool :=
  (alistLookup m k).isSome

/-- Python `d[k] = v`: replace in place if the key exists, else append. -/
def alistInsert {α : Type} : List (String × α) → String → α → List (String × α)
  | [], k, v => [(k, v)]
  | (k', v') :: rest, k, v =>
      if k' = k then (k, v) :: rest else (k', v') :: alistInsert rest k v

abbrev RecordMap := List (String × DNSRecord)
abbrev ChildrenMap := List (String × List String)

/-- The first loop of `build_hierarchy`: `record_map[name] = record`. -/
def buildRecordMap (records : List DNSRecord) : RecordMap :=
  records.foldl (fun m r => alistInsert m (pyNormalize r.name) r) []

def cnameTypes : List String := ["CNAME", "ALIAS", "DNAME"]

/-- The edge contributed by one record in `build_hierarchy`'s second loop:
`some (parent, child)` when an edge is inserted, `none` otherwise. -/
def edgeOf (rm : RecordMap) (r : DNSRecord) : Option (String × String) :=
  let name := pyNormalize r.name
  let content := pyNormalize r.content
  if content = "" then none
  else if r.type ∈ cnameTypes then
    if alistContains rm content then some (content, name) else none
  else if r.type = "MX" then
    match pySplit content with
    | _ :: t :: _ =>
        let tgt := rstripDots (pyStrip t)
        if alistContains rm tgt then some (tgt, name) else none
    | _ => none
  else if r.type = "SRV" then
    match pySplit content with
    | _ :: _ :: _ :: t :: _ =>
        let tgt := rstripDots (pyStrip t)
        if alistContains rm tgt then some (tgt, name) else none
    | _ => none
  else none

/-- Inserting one edge into `children_map`: create the key if missing,
append the child only when not already present. -/
def addEdge (cm : ChildrenMap) (parent child : String) : ChildrenMap :=
  match alistLookup cm parent with
  | none => cm ++ [(parent, [child])]
  | some cs => if child ∈ cs then cm else alistInsert cm parent (cs ++ [child])

/-- One step of `build_hierarchy`'s second loop. -/
def buildStep (rm : RecordMap) (cm : ChildrenMap) (r : DNSRecord) : ChildrenMap :=
  match edgeOf rm r with
  | some pc => addEdge cm pc.1 pc.2
  | none => cm

/-- The whole `build_hierarchy`: returns `(children_map, record_map)`. -/
def build_hierarchy (records : List DNSRecord) : ChildrenMap × RecordMap :=
  let rm := buildRecordMap records
  (records.foldl (buildStep rm) [], rm)

/-- The children list of a parent (empty when absent). -/
def childrenOf (cm : ChildrenMap) (parent : String) : List String :=
  (alistLookup cm parent).getD []

/-- The `all_children` set: the union of every children list. -/
def allChildrenOf (cm : ChildrenMap) : List String :=
  cm.foldl (fun acc e => acc ++ e.2) []

/-- Lexicographic (code-point) comparison of character lists, as Python
compares strings. -/
def lexLe : List Char → List Char → Bool
  | [], _ => true
  | _ :: _, [] => false
  | a :: as, b :: bs =>
      if a < b then true else if b < a then false else lexLe as bs

/-- Python string `<=`: code-point lexicographic. -/
def strLe (s t : String) : Bool := lexLe s.data t.data

/-- Ascending (Python `sorted`) on strings. -/
def sortStrings (l : List String) : List String :=
  l.insertionSort (fun a b => strLe a b)

/-- The `find_root_records` function: names (normalized WITHOUT whitespace strip) that
occur in no children list, deduplicated and sorted. -/
def find_root_records (records : List DNSRecord) (cm : ChildrenMap) : List String :=
  let allChildren := allChildrenOf cm
  let roots := records.filterMap (fun r =>
    let name := rootNameNormalize r.name
    if name ∈ allChildren then none else some name)
  sortStrings roots.dedup

/-- The `is_root` scan in `generate_mindmap`'s re-rooting loop. -/
def isRootIn (cm : ChildrenMap) (name : String) : Bool :=
  !(cm.any (fun e => decide (name ∈ e.2)))

def rerootTypes : List String := ["A", "AAAA", "CNAME", "ALIAS", "DNAME"]

/-- Python `ip_parent_map[content].append(name)` (creating the key if needed):
note the append is unconditional, with no duplicate check. -/
def ipAppend (m : List (String × List String)) (k v : String) :
    List (String × List String) :=
  match alistLookup m k with
  | none => m ++ [(k, [v])]
  | some vs => alistInsert m k (vs ++ [v])

/-- One step of the re-rooting loop: the accumulator is
`(ip_parent_map, domains_with_ip_parents)`. -/
def rerootStep (cm : ChildrenMap)
    (acc : List (String × List String) × List String) (r : DNSRecord) :
    List (String × List String) × List String :=
  let name := pyNormalize r.name
  let content := pyNormalize r.content
  if isRootIn cm name = true ∧ content ≠ "" ∧ r.type ∈ rerootTypes then
    (ipAppend acc.1 content name, acc.2 ++ [name])
  else acc

/-- The whole re-rooting loop of `generate_mindmap`. -/
def rerootScan (cm : ChildrenMap) (records : List DNSRecord) :
    List (String × List String) × List String :=
  records.foldl (rerootStep cm) ([], [])

/-- The final root list: initial roots minus moved domains, plus the
sorted `ip_parent_map` keys, then `sorted(set(...))`. -/
def finalRoots (records : List DNSRecord) (cm : ChildrenMap)
    (ipm : List (String × List String)) (moved : List String) : List String :=
  let roots0 := find_root_records records cm
  let roots1 := roots0.filter (fun r => r ∉ moved)
  let roots2 := roots1 ++ sortStrings (ipm.map Prod.fst)
  sortStrings roots2.dedup

/-- The `for child in sorted(children_map[name])` loop of `write_hierarchy`,
abstracted over the recursive call `f` (one level deeper). -/
def writeChildrenF
    (f : String → Nat → List String → List (Nat × String) × List String) :
    List String → Nat → List String → List (Nat × String) × List String
  | [], _, visited => ([], visited)
  | c :: cs, level, visited =>
      let r₁ := f c level visited
      let r₂ := writeChildrenF f cs level r₁.2
      (r₁.1 ++ r₂.1, r₂.2)

/-- The recursive `write_hierarchy`: emits `(level, name)` nodes, threading the visited
set; returns immediately on an already-visited name. `fuel` bounds the
recursion depth (the pipeline passes enough, and the fuel-independence
lemma below shows any sufficient fuel gives the same result). -/
def writeNode (cm : ChildrenMap) : Nat → String → Nat → List String →
    List (Nat × String) × List String
  | 0, _, _, visited => ([], visited)
  | fuel + 1, name, level, visited =>
    if name ∈ visited then ([], visited)
    else
      match alistLookup cm name with
      | none => ([(level, name)], name :: visited)
      | some cs =>
          let r := writeChildrenF (fun c lv vis => writeNode cm fuel c lv vis)
            (sortStrings cs) (level + 1) (name :: visited)
          ((level, name) :: r.1, r.2)

/-- The body of `generate_mindmap`'s output loop for one final root. -/
def renderRoot (cm : ChildrenMap) (ipm : List (String × List String))
    (fuel : Nat) (root : String) : List (Nat × String) :=
  match alistLookup ipm root with
  | some domains =>
      (0, root) :: (sortStrings domains).foldl
        (fun acc d => acc ++ (writeNode cm fuel d 1 []).1) []
  | none => (writeNode cm fuel root 0 []).1

/-- Fuel passed by the pipeline: more than the number of records, hence
more than the number of distinct child names. -/
def mindmapFuel (records : List DNSRecord) : Nat := records.length + 1

/-- The structured output of `generate_mindmap`: one `(level, name)` node
per emitted line, in order. -/
def mindmapNodes (records : List DNSRecord) : List (Nat × String) :=
  let cm := (build_hierarchy records).1
  let im := rerootScan cm records
  let roots := finalRoots records cm im.1 im.2
  roots.foldl (fun acc root => acc ++ renderRoot cm im.1 (mindmapFuel records) root) []

/-- One output line: `'  ' * level + '- ' + name`. -/
def formatLine (node : Nat × String) : String :=
  String.join (List.replicate node.1 "  ") ++ "- " ++ node.2

/-- The full list of lines written to the output file. -/
def mindmapLines (records : List DNSRecord) : List String :=
  ["# DNS Record Hierarchy", ""] ++ (mindmapNodes records).map formatLine

/-- All names occurring in some children list of the map. -/
def childNameFinset (cm : ChildrenMap) : Finset String :=
  (cm.flatMap (fun e => e.2)).toFinset

/-- Fuel that always suffices for `writeNode cm · name · visited`: one more
than the number of not-yet-visited names that could still be entered. -/
def writeNodeBound (cm : ChildrenMap) (name : String) (visited : List String) : Nat :=
  ((insert name (childNameFinset cm)) \ visited.toFinset).card + 1

/-- Modelled from the spec (claim C4): "lowercase, strip leading/trailing
whitespace, strip a single trailing `.`" — the normalization the spec
claims is applied before every comparison. Kept separate from the
source-derived `pyNormalize` / `rootNameNormalize` for comparison. -/
def specNormalize (s : String) : String :=
  let t := pyStrip (pyLower s)
  if t.data.getLast? = some '.' then String.mk t.data.dropLast else t

/-- The registration a record contributes in the re-rooting loop:
`some (content, name)` (both normalized) when the record is a root of a
re-rootable type with non-empty content, else `none`. -/
def rerootEntry (cm : ChildrenMap) (r : DNSRecord) : Option (String × String) :=
  if isRootIn cm (pyNormalize r.name) = true ∧ pyNormalize r.content ≠ ""
      ∧ r.type ∈ rerootTypes then
    some (pyNormalize r.content, pyNormalize r.name)
  else none

/-- Two records agree on every projection the pipeline ever reads: the
raw type, the `build_hierarchy`/re-rooting normalization of name and
content, and the `find_root_records` normalization of the name. -/
def recordViewEq (r r' : DNSRecord) : Prop :=
  r.type = r'.type
    ∧ pyNormalize r.name = pyNormalize r'.name
    ∧ rootNameNormalize r.name = rootNameNormalize r'.name
    ∧ pyNormalize r.content = pyNormalize r'.content

/-! ## Order facts for the string comparator -/

theorem lexLe_total : ∀ a b : List Char, lexLe a b = true ∨ lexLe b a = true := by
  intro a
  induction a with
  | nil => intro b; left; rfl
  | cons x xs ih =>
    intro b
    cases b with
    | nil => right; rfl
    | cons y ys =>
      by_cases hxy : x < y
      · left; simp [lexLe, hxy]
      · by_cases hyx : y < x
        · right; simp [lexLe, hyx]
        · have hx : x = y := le_antisymm (not_lt.mp hyx) (not_lt.mp hxy)
          subst hx
          rcases ih ys with h | h
          · left; simp [lexLe, h]
          · right; simp [lexLe, h]

theorem lexLe_trans : ∀ a b c : List Char,
    lexLe a b = true → lexLe b c = true → lexLe a c = true := by
  intro a
  induction a with
  | nil => intro b c _ _; rfl
  | cons x xs ih =>
    intro b c hab hbc
    cases b with
    | nil => simp [lexLe] at hab
    | cons y ys =>
      cases c with
      | nil => simp [lexLe] at hbc
      | cons z zs =>
        by_cases hxy : x < y
        · by_cases hyz : y < z
          · simp [lexLe, lt_trans hxy hyz]
          · by_cases hzy : z < y
            · simp [lexLe, hyz, hzy] at hbc
            · have : y = z := le_antisymm (not_lt.mp hzy) (not_lt.mp hyz)
              subst this; simp [lexLe, hxy]
        · by_cases hyx : y < x
          · simp [lexLe, hxy, hyx] at hab
          · have hx : x = y := le_antisymm (not_lt.mp hyx) (not_lt.mp hxy)
            subst hx
            simp only [lexLe, if_neg (lt_irrefl x)] at hab
            by_cases hxz : x < z
            · simp [lexLe, hxz]
            · by_cases hzx : z < x
              · simp [lexLe, hxz, hzx] at hbc
              · have hx2 : x = z := le_antisymm (not_lt.mp hzx) (not_lt.mp hxz)
                subst hx2
                simp only [lexLe, if_neg (lt_irrefl x)] at hbc ⊢
                exact ih ys zs hab hbc

theorem lexLe_antisymm : ∀ a b : List Char,
    lexLe a b = true → lexLe b a = true → a = b := by
  intro a
  induction a with
  | nil =>
    intro b _ hba
    cases b with
    | nil => rfl
    | cons y ys => simp [lexLe] at hba
  | cons x xs ih =>
    intro b hab hba
    cases b with
    | nil => simp [lexLe] at hab
    | cons y ys =>
      by_cases hxy : x < y
      · simp [lexLe, hxy, lt_asymm hxy] at hba
      · by_cases hyx : y < x
        · simp [lexLe, hxy, hyx] at hab
        · have hx : x = y := le_antisymm (not_lt.mp hyx) (not_lt.mp hxy)
          subst hx
          simp only [lexLe, if_neg (lt_irrefl x)] at hab hba
          rw [ih ys hab hba]

instance : IsTotal String (fun a b => strLe a b = true) :=
  ⟨fun a b => lexLe_total a.data b.data⟩

instance : IsTrans String (fun a b => strLe a b = true) :=
  ⟨fun a b c => lexLe_trans a.data b.data c.data⟩

instance : IsAntisymm String (fun a b => strLe a b = true) :=
  ⟨fun a b hab hba => by
    cases a; cases b
    exact congrArg String.mk (lexLe_antisymm _ _ hab hba)⟩

theorem sortStrings_perm (l : List String) : (sortStrings l).Perm l :=
  List.perm_insertionSort _ l

theorem sortStrings_sorted (l : List String) :
    (sortStrings l).Sorted (fun a b => strLe a b = true) :=
  List.sorted_insertionSort _ l

theorem mem_sortStrings {x : String} {l : List String} :
    x ∈ sortStrings l ↔ x ∈ l :=
  (sortStrings_perm l).mem_iff

theorem sortStrings_eq_of_perm {l l' : List String} (h : l.Perm l') :
    sortStrings l = sortStrings l' :=
  List.eq_of_perm_of_sorted
    ((sortStrings_perm l).trans (h.trans (sortStrings_perm l').symm))
    (sortStrings_sorted l) (sortStrings_sorted l')

theorem sortStrings_eq_of_nodup_of_mem_iff {l l' : List String}
    (h₁ : l.Nodup) (h₂ : l'.Nodup) (h : ∀ x, x ∈ l ↔ x ∈ l') :
    sortStrings l = sortStrings l' :=
  sortStrings_eq_of_perm ((List.perm_ext_iff_of_nodup h₁ h₂).2 h)

theorem sortStrings_nodup {l : List String} (h : l.Nodup) :
    (sortStrings l).Nodup :=
  (sortStrings_perm l).nodup_iff.2 h

/-! ## Association-list lemmas -/

theorem alistLookup_alistInsert {α : Type} (m : List (String × α)) (k k' : String)
    (v : α) : alistLookup (alistInsert m k v) k'
      = if k = k' then some v else alistLookup m k' := by
  induction m with
  | nil => simp [alistInsert, alistLookup]
  | cons p rest ih =>
    obtain ⟨pk, pv⟩ := p
    by_cases hpk : pk = k
    · subst hpk
      by_cases hk' : pk = k' <;> simp [alistInsert, alistLookup, hk']
    · by_cases hk' : pk = k'
      · subst hk'
        have : ¬ k = pk := fun h => hpk h.symm
        simp [alistInsert, alistLookup, hpk, this]
      · simp [alistInsert, alistLookup, hpk, hk', ih]

theorem alistContains_alistInsert {α : Type} (m : List (String × α))
    (k k' : String) (v : α) : alistContains (alistInsert m k v) k'
      = (k = k' || alistContains m k') := by
  by_cases h : k = k' <;> simp [alistContains, alistLookup_alistInsert, h]

theorem alistLookup_append {α : Type} (m₁ m₂ : List (String × α)) (k : String) :
    alistLookup (m₁ ++ m₂) k
      = ((alistLookup m₁ k).rec (alistLookup m₂ k) (fun v => some v) : Option α) := by
  induction m₁ with
  | nil => simp [alistLookup]
  | cons p rest ih =>
    by_cases h : p.1 = k
    · simp [alistLookup, h]
    · simpa [alistLookup, h] using ih

theorem alistLookup_keys_none {α : Type} (m : List (String × α)) (k : String)
    (h : k ∉ m.map Prod.fst) : alistLookup m k = none := by
  induction m with
  | nil => rfl
  | cons p rest ih =>
    simp only [List.map_cons, List.mem_cons] at h
    push_neg at h
    have h1 : ¬ p.1 = k := fun hh => h.1 hh.symm
    simp [alistLookup, h1, ih h.2]

theorem alistLookup_isSome_iff_mem_keys {α : Type} (m : List (String × α))
    (k : String) : (alistLookup m k).isSome = true ↔ k ∈ m.map Prod.fst := by
  induction m with
  | nil => simp [alistLookup]
  | cons p rest ih =>
    by_cases h : p.1 = k
    · simp [alistLookup, h]
    · have h' : ¬ k = p.1 := fun hh => h hh.symm
      rw [List.map_cons, List.mem_cons]
      simp only [alistLookup, if_neg h]
      rw [ih]
      exact (or_iff_right h').symm

theorem mem_of_alistLookup_eq {α : Type} {m : List (String × α)} {k : String}
    {v : α} (h : alistLookup m k = some v) : (k, v) ∈ m := by
  induction m with
  | nil => simp [alistLookup] at h
  | cons p rest ih =>
    obtain ⟨p1, p2⟩ := p
    by_cases hp : p1 = k
    · subst hp
      simp only [alistLookup, if_pos rfl] at h
      cases h
      exact List.mem_cons_self _ _
    · simp only [alistLookup, if_neg hp] at h
      exact List.mem_cons_of_mem _ (ih h)

theorem alistLookup_eq_of_mem {α : Type} {m : List (String × α)} {k : String}
    {v : α} (hnd : (m.map Prod.fst).Nodup) (hm : (k, v) ∈ m) :
    alistLookup m k = some v := by
  induction m with
  | nil => simp at hm
  | cons p rest ih =>
    simp only [List.map_cons, List.nodup_cons] at hnd
    rcases List.mem_cons.mp hm with h | h
    · subst h; simp [alistLookup]
    · have hk : p.1 ≠ k := by
        intro he
        exact hnd.1 (he ▸ (List.mem_map.mpr ⟨(k, v), h, rfl⟩))
      simp [alistLookup, hk, ih hnd.2 h]

theorem alistInsert_keys_of_contains {α : Type} {m : List (String × α)}
    {k : String} (v : α) (h : alistContains m k = true) :
    (alistInsert m k v).map Prod.fst = m.map Prod.fst := by
  induction m with
  | nil => simp [alistContains, alistLookup] at h
  | cons p rest ih =>
    by_cases hp : p.1 = k
    · simp [alistInsert, hp]
    · simp only [alistContains, alistLookup, if_neg hp, List.map] at h ⊢
      rw [alistInsert]
      simp only [if_neg hp, List.map]
      rw [ih h]

/-! ## `addEdge` lemmas -/

theorem alistLookup_addEdge (cm : ChildrenMap) (p' c' p : String) :
    alistLookup (addEdge cm p' c') p
      = if p' = p then
          some (match alistLookup cm p' with
                | none => [c']
                | some cs => if c' ∈ cs then cs else cs ++ [c'])
        else alistLookup cm p := by
  cases hl : alistLookup cm p' with
  | none =>
    rw [addEdge, hl, alistLookup_append]
    by_cases hp : p' = p
    · subst hp; simp [hl, alistLookup]
    · have hp' : ¬ p' = p := hp
      cases h2 : alistLookup cm p with
      | none => simp [h2, alistLookup, hp', if_neg hp]
      | some v => simp [h2, if_neg hp]
  | some cs =>
    rw [addEdge, hl]
    by_cases hc : c' ∈ cs
    · simp only [if_pos hc]
      by_cases hp : p' = p
      · subst hp; simp [hl, hc]
      · simp [if_neg hp]
    · simp only [if_neg hc, alistLookup_alistInsert]

theorem mem_alistInsert {α : Type} {m : List (String × α)} {k : String} {v : α}
    {e : String × α} (he : e ∈ alistInsert m k v) : e ∈ m ∨ e = (k, v) := by
  induction m with
  | nil =>
    right
    simpa [alistInsert] using he
  | cons q rest ih =>
    by_cases hq : q.1 = k
    · rw [alistInsert, if_pos hq] at he
      rcases List.mem_cons.mp he with h1 | h1
      · right; exact h1
      · left; exact List.mem_cons_of_mem q h1
    · rw [alistInsert, if_neg hq] at he
      rcases List.mem_cons.mp he with h1 | h1
      · left; exact h1 ▸ List.mem_cons_self q rest
      · rcases ih h1 with h2 | h2
        · left; exact List.mem_cons_of_mem q h2
        · right; exact h2

theorem mem_childrenOf_addEdge {cm : ChildrenMap} {p' c' p c : String} :
    c ∈ childrenOf (addEdge cm p' c') p
      ↔ (p = p' ∧ c = c') ∨ c ∈ childrenOf cm p := by
  unfold childrenOf
  rw [alistLookup_addEdge]
  by_cases hp : p' = p
  · subst hp
    rw [if_pos rfl]
    cases hl : alistLookup cm p' with
    | none => simp [hl]
    | some cs =>
      by_cases hc : c' ∈ cs
      · simp only [if_pos hc, Option.getD_some]
        constructor
        · exact fun h => Or.inr h
        · rintro (⟨-, h⟩ | h)
          · exact h ▸ hc
          · exact h
      · simp [hc, or_comm]
  · rw [if_neg hp]
    have hps : ¬ (p = p' ∧ c = c') := fun h => hp h.1.symm
    exact (or_iff_right hps).symm

theorem addEdge_keys_nodup {cm : ChildrenMap} {p c : String}
    (h : (cm.map Prod.fst).Nodup) : ((addEdge cm p c).map Prod.fst).Nodup := by
  cases hl : alistLookup cm p with
  | none =>
    simp only [addEdge, hl, List.map_append]
    simp only [List.map]
    rw [List.nodup_append]
    refine ⟨h, List.nodup_singleton p, ?_⟩
    intro x hx hx'
    simp only [List.mem_singleton] at hx'
    subst hx'
    have := (alistLookup_isSome_iff_mem_keys cm x).mpr hx
    rw [hl] at this
    exact Bool.noConfusion this
  | some cs =>
    simp only [addEdge, hl]
    by_cases hc : c ∈ cs
    · simpa [hc] using h
    · rw [if_neg hc, alistInsert_keys_of_contains]
      · exact h
      · simp [alistContains, hl]

theorem addEdge_children_nodup {cm : ChildrenMap} {p c : String}
    (h : ∀ e ∈ cm, e.2.Nodup) : ∀ e ∈ addEdge cm p c, e.2.Nodup := by
  cases hl : alistLookup cm p with
  | none =>
    simp only [addEdge, hl]
    intro e he
    rcases List.mem_append.mp he with h1 | h1
    · exact h e h1
    · simp only [List.mem_singleton] at h1
      subst h1
      exact List.nodup_singleton c
  | some cs =>
    simp only [addEdge, hl]
    by_cases hc : c ∈ cs
    · rw [if_pos hc]; exact h
    · rw [if_neg hc]
      have hcs : cs.Nodup := h (p, cs) (mem_of_alistLookup_eq hl)
      have hnd : (cs ++ [c]).Nodup := by
        rw [List.nodup_append]
        refine ⟨hcs, List.nodup_singleton c, ?_⟩
        intro x hx hx'
        simp only [List.mem_singleton] at hx'
        subst hx'
        exact hc hx
      intro e he
      rcases mem_alistInsert he with h1 | h1
      · exact h e h1
      · rw [h1]
        exact hnd

theorem addEdge_idem (cm : ChildrenMap) (p c : String) :
    addEdge (addEdge cm p c) p c = addEdge cm p c := by
  have hl : alistLookup (addEdge cm p c) p
      = some (match alistLookup cm p with
              | none => [c]
              | some cs => if c ∈ cs then cs else cs ++ [c]) := by
    rw [alistLookup_addEdge]; simp
  rw [addEdge, hl]
  cases h2 : alistLookup cm p with
  | none => simp
  | some cs =>
    by_cases hc : c ∈ cs
    · simp [hc]
    · simp [hc]

/-! ## Characterizing the built hierarchy -/

theorem mem_childrenOf_foldl (rm : RecordMap) (l : List DNSRecord)
    (cm0 : ChildrenMap) (p c : String) :
    c ∈ childrenOf (l.foldl (buildStep rm) cm0) p
      ↔ c ∈ childrenOf cm0 p ∨ ∃ r ∈ l, edgeOf rm r = some (p, c) := by
  induction l generalizing cm0 with
  | nil => simp
  | cons r rs ih =>
    rw [List.foldl_cons]
    cases he : edgeOf rm r with
    | none =>
      rw [show buildStep rm cm0 r = cm0 by simp [buildStep, he]]
      rw [ih]
      simp [he]
    | some pc =>
      obtain ⟨ep, ec⟩ := pc
      rw [show buildStep rm cm0 r = addEdge cm0 ep ec by simp [buildStep, he]]
      rw [ih]
      simp only [mem_childrenOf_addEdge, List.mem_cons]
      constructor
      · rintro ((⟨h1, h2⟩ | h) | ⟨r', hr', he'⟩)
        · exact Or.inr ⟨r, Or.inl rfl, by rw [he, h1, h2]⟩
        · exact Or.inl h
        · exact Or.inr ⟨r', Or.inr hr', he'⟩
      · rintro (h | ⟨r', hr' | hr', he'⟩)
        · exact Or.inl (Or.inr h)
        · subst hr'
          rw [he] at he'
          have h2 := Option.some.inj he'
          rw [Prod.mk.injEq] at h2
          exact Or.inl (Or.inl ⟨h2.1.symm, h2.2.symm⟩)
        · exact Or.inr ⟨r', hr', he'⟩

theorem build_keys_nodup (rm : RecordMap) (l : List DNSRecord)
    (cm0 : ChildrenMap) (h : (cm0.map Prod.fst).Nodup) :
    ((l.foldl (buildStep rm) cm0).map Prod.fst).Nodup := by
  induction l generalizing cm0 with
  | nil => exact h
  | cons r rs ih =>
    rw [List.foldl_cons]
    apply ih
    unfold buildStep
    cases he : edgeOf rm r with
    | none => exact h
    | some pc => exact addEdge_keys_nodup h

theorem build_children_nodup (rm : RecordMap) (l : List DNSRecord)
    (cm0 : ChildrenMap) (h : ∀ e ∈ cm0, e.2.Nodup) :
    ∀ e ∈ l.foldl (buildStep rm) cm0, e.2.Nodup := by
  induction l generalizing cm0 with
  | nil => exact h
  | cons r rs ih =>
    rw [List.foldl_cons]
    apply ih
    unfold buildStep
    cases he : edgeOf rm r with
    | none => exact h
    | some pc => exact addEdge_children_nodup h

theorem alistInsert_idem {α : Type} (m : List (String × α)) (k : String) (v : α) :
    alistInsert (alistInsert m k v) k v = alistInsert m k v := by
  induction m with
  | nil => simp [alistInsert]
  | cons p rest ih =>
    by_cases hp : p.1 = k
    · simp [alistInsert, hp]
    · simp [alistInsert, hp, ih]

theorem buildStep_idem (rm : RecordMap) (cm : ChildrenMap) (r : DNSRecord) :
    buildStep rm (buildStep rm cm r) r = buildStep rm cm r := by
  unfold buildStep
  cases he : edgeOf rm r with
  | none => rfl
  | some pc => exact addEdge_idem cm pc.1 pc.2

theorem foldl_dup {α β : Type} (f : β → α → β) (hf : ∀ m r, f (f m r) r = f m r)
    (l : List α) (acc : β) :
    (l.flatMap fun r => [r, r]).foldl f acc = l.foldl f acc := by
  induction l generalizing acc with
  | nil => rfl
  | cons r rs ih =>
    rw [List.flatMap_cons, List.foldl_append]
    simp only [List.foldl_cons, List.foldl_nil]
    rw [hf]
    exact ih _

theorem buildRecordMap_dup (l : List DNSRecord) :
    buildRecordMap (l.flatMap fun r => [r, r]) = buildRecordMap l :=
  foldl_dup _ (fun m r => alistInsert_idem m (pyNormalize r.name) r) l []

/-! ## Claim C6 -/

/-- C6: Edge insertion into the RelationshipMap is idempotent: building the
hierarchy from the record list with every record duplicated yields exactly
the same `(children_map, record_map)` as building it from the original
list, and no children list of the built map ever contains a duplicate
entry. -/
theorem edge_insertion_idempotent (l : List DNSRecord) :
    build_hierarchy (l.flatMap fun r => [r, r]) = build_hierarchy l
      ∧ ∀ e ∈ (build_hierarchy l).1, e.2.Nodup := by
  constructor
  · unfold build_hierarchy
    rw [buildRecordMap_dup]
    show (List.foldl (buildStep (buildRecordMap l)) [] (l.flatMap fun r => [r, r]),
        buildRecordMap l)
      = (List.foldl (buildStep (buildRecordMap l)) [] l, buildRecordMap l)
    rw [foldl_dup (buildStep (buildRecordMap l)) (buildStep_idem _) l []]
  · exact build_children_nodup _ l [] (by simp)

/-! ## Claim C5 -/

/-- C5: For an MX record, when the normalized content splits into at least
two whitespace-delimited tokens, an edge from the normalized second token
to the record's normalized name is present after the step exactly when
that token is a key of the record map (and the map is left unchanged when
it is not); with fewer than two tokens the map is left unchanged (and no
error can arise: the step is a total function). -/
theorem mx_record_edge (rm : RecordMap) (cm : ChildrenMap) (r : DNSRecord)
    (hty : r.type = "MX") :
    (∀ t0 t rest, pySplit (pyNormalize r.content) = t0 :: t :: rest →
        ((pyNormalize r.name ∈ childrenOf (buildStep rm cm r) (rstripDots (pyStrip t))
            ↔ alistContains rm (rstripDots (pyStrip t)) = true
              ∨ pyNormalize r.name ∈ childrenOf cm (rstripDots (pyStrip t)))
          ∧ (alistContains rm (rstripDots (pyStrip t)) = false →
              buildStep rm cm r = cm)))
    ∧ (∀ t0, pySplit (pyNormalize r.content) = [t0] → buildStep rm cm r = cm)
    ∧ (pySplit (pyNormalize r.content) = [] → buildStep rm cm r = cm) := by
  have hcn : ¬ (r.type ∈ cnameTypes) := by rw [hty]; decide
  have hsplit_empty : pySplit "" = [] := rfl
  refine ⟨?_, ?_, ?_⟩
  · intro t0 t rest heq
    have hne : pyNormalize r.content ≠ "" := by
      intro h0
      rw [h0, hsplit_empty] at heq
      exact List.noConfusion heq
    have he : edgeOf rm r
        = if alistContains rm (rstripDots (pyStrip t)) then
            some (rstripDots (pyStrip t), pyNormalize r.name)
          else none := by
      unfold edgeOf
      rw [if_neg hne, if_neg hcn, if_pos hty, heq]
    cases hc : alistContains rm (rstripDots (pyStrip t)) with
    | true =>
      have hb : buildStep rm cm r
          = addEdge cm (rstripDots (pyStrip t)) (pyNormalize r.name) := by
        unfold buildStep
        rw [he, if_pos hc]
      refine ⟨?_, ?_⟩
      · rw [hb]
        simp [mem_childrenOf_addEdge]
      · intro hfalse
        exact Bool.noConfusion hfalse
    | false =>
      have hb : buildStep rm cm r = cm := by
        unfold buildStep
        rw [he, if_neg (by rw [hc]; exact Bool.noConfusion)]
      refine ⟨?_, fun _ => hb⟩
      rw [hb]
      simp [hc]
  · intro t0 heq
    have hne : pyNormalize r.content ≠ "" := by
      intro h0
      rw [h0, hsplit_empty] at heq
      exact List.noConfusion heq
    have he : edgeOf rm r = none := by
      unfold edgeOf
      rw [if_neg hne, if_neg hcn, if_pos hty, heq]
    unfold buildStep
    rw [he]
  · intro heq
    by_cases hne : pyNormalize r.content = ""
    · have he : edgeOf rm r = none := by
        unfold edgeOf
        rw [if_pos hne]
      unfold buildStep
      rw [he]
    · have he : edgeOf rm r = none := by
        unfold edgeOf
        rw [if_neg hne, if_neg hcn, if_pos hty, heq]
      unfold buildStep
      rw [he]

/-- Witness for C5: an MX record `"10 mail.example.com"` whose host is a
known record gains the edge, and an MX record with content `"10"` adds
nothing. -/
theorem mx_record_edge_witness :
    (pyNormalize (DNSRecord.mk "MX1" "MX" "10 mail.example.com").name
        ∈ childrenOf
            (buildStep (buildRecordMap [⟨"mail.example.com", "A", "5.6.7.8"⟩]) []
              ⟨"MX1", "MX", "10 mail.example.com"⟩)
            (rstripDots (pyStrip "mail.example.com"))
      ↔ alistContains (buildRecordMap [⟨"mail.example.com", "A", "5.6.7.8"⟩])
            (rstripDots (pyStrip "mail.example.com")) = true
        ∨ pyNormalize (DNSRecord.mk "MX1" "MX" "10 mail.example.com").name
            ∈ childrenOf [] (rstripDots (pyStrip "mail.example.com")))
    ∧ buildStep (buildRecordMap [⟨"mail.example.com", "A", "5.6.7.8"⟩]) []
        ⟨"mx2", "MX", "10"⟩ = [] := by
  constructor
  · exact ((mx_record_edge (buildRecordMap [⟨"mail.example.com", "A", "5.6.7.8"⟩])
      [] ⟨"MX1", "MX", "10 mail.example.com"⟩ rfl).1 "10" "mail.example.com" []
      (by decide)).1
  · exact (mx_record_edge (buildRecordMap [⟨"mail.example.com", "A", "5.6.7.8"⟩])
      [] ⟨"mx2", "MX", "10"⟩ rfl).2.1 "10" (by decide)

/-! ## Renderer structure lemmas -/

theorem writeNode_zero (cm : ChildrenMap) (name : String) (level : Nat)
    (visited : List String) : writeNode cm 0 name level visited = ([], visited) :=
  rfl

theorem writeNode_succ_mem (cm : ChildrenMap) {name : String}
    {visited : List String} (h : name ∈ visited) (fuel level : Nat) :
    writeNode cm (fuel + 1) name level visited = ([], visited) := by
  simp [writeNode, h]

theorem writeNode_succ_none (cm : ChildrenMap) {name : String}
    {visited : List String} (h : name ∉ visited)
    (hcs : alistLookup cm name = none) (fuel level : Nat) :
    writeNode cm (fuel + 1) name level visited
      = ([(level, name)], name :: visited) := by
  simp [writeNode, h, hcs]

theorem writeNode_succ_some (cm : ChildrenMap) {name : String}
    {visited : List String} (h : name ∉ visited) {cs : List String}
    (hcs : alistLookup cm name = some cs) (fuel level : Nat) :
    writeNode cm (fuel + 1) name level visited
      = ((level, name) :: (writeChildrenF (fun c lv vis => writeNode cm fuel c lv vis)
            (sortStrings cs) (level + 1) (name :: visited)).1,
         (writeChildrenF (fun c lv vis => writeNode cm fuel c lv vis)
            (sortStrings cs) (level + 1) (name :: visited)).2) := by
  simp [writeNode, h, hcs]

theorem writeChildrenF_nil
    (f : String → Nat → List String → List (Nat × String) × List String)
    (level : Nat) (visited : List String) :
    writeChildrenF f [] level visited = ([], visited) :=
  rfl

theorem writeChildrenF_cons
    (f : String → Nat → List String → List (Nat × String) × List String)
    (c : String) (cs : List String) (level : Nat) (visited : List String) :
    writeChildrenF f (c :: cs) level visited
      = ((f c level visited).1
            ++ (writeChildrenF f cs level (f c level visited).2).1,
         (writeChildrenF f cs level (f c level visited).2).2) :=
  rfl

theorem writeChildrenF_visited
    (f : String → Nat → List String → List (Nat × String) × List String)
    (hf : ∀ c lv vis, (f c lv vis).2 = ((f c lv vis).1.map Prod.snd).reverse ++ vis) :
    ∀ (cs : List String) (level : Nat) (visited : List String),
      (writeChildrenF f cs level visited).2
        = ((writeChildrenF f cs level visited).1.map Prod.snd).reverse ++ visited := by
  intro cs
  induction cs with
  | nil => intro level visited; simp [writeChildrenF_nil]
  | cons c cs ih =>
    intro level visited
    rw [writeChildrenF_cons]
    dsimp only
    rw [ih level ((f c level visited).2), hf c level visited]
    simp [List.map_append, List.reverse_append, List.append_assoc]

theorem writeNode_visited_eq (cm : ChildrenMap) :
    ∀ (fuel : Nat) (name : String) (level : Nat) (visited : List String),
      (writeNode cm fuel name level visited).2
        = ((writeNode cm fuel name level visited).1.map Prod.snd).reverse ++ visited := by
  intro fuel
  induction fuel with
  | zero => intro name level visited; simp [writeNode_zero]
  | succ fuel ih =>
    intro name level visited
    by_cases h : name ∈ visited
    · rw [writeNode_succ_mem cm h]; simp
    · cases hcs : alistLookup cm name with
      | none => rw [writeNode_succ_none cm h hcs]; simp
      | some cs =>
        rw [writeNode_succ_some cm h hcs]
        dsimp only
        rw [writeChildrenF_visited (fun c lv vis => writeNode cm fuel c lv vis)
          (fun c lv vis => ih c lv vis) (sortStrings cs) (level + 1) (name :: visited)]
        simp [List.append_assoc]

theorem writeNode_visited_mono (cm : ChildrenMap) (fuel : Nat) (name : String)
    (level : Nat) (visited : List String) {x : String} (hx : x ∈ visited) :
    x ∈ (writeNode cm fuel name level visited).2 := by
  rw [writeNode_visited_eq]
  exact List.mem_append_right _ hx

theorem writeChildrenF_nodup
    (f : String → Nat → List String → List (Nat × String) × List String)
    (hf : ∀ c lv vis, vis.Nodup → (f c lv vis).2.Nodup) :
    ∀ (cs : List String) (level : Nat) (visited : List String), visited.Nodup →
      (writeChildrenF f cs level visited).2.Nodup := by
  intro cs
  induction cs with
  | nil => intro level visited h; exact h
  | cons c cs ih =>
    intro level visited h
    rw [writeChildrenF_cons]
    exact ih level _ (hf c level visited h)

theorem writeNode_visited_nodup (cm : ChildrenMap) :
    ∀ (fuel : Nat) (name : String) (level : Nat) (visited : List String),
      visited.Nodup → (writeNode cm fuel name level visited).2.Nodup := by
  intro fuel
  induction fuel with
  | zero => intro name level visited h; exact h
  | succ fuel ih =>
    intro name level visited h
    by_cases hm : name ∈ visited
    · rw [writeNode_succ_mem cm hm]; exact h
    · cases hcs : alistLookup cm name with
      | none =>
        rw [writeNode_succ_none cm hm hcs]
        exact List.nodup_cons.mpr ⟨hm, h⟩
      | some cs =>
        rw [writeNode_succ_some cm hm hcs]
        exact writeChildrenF_nodup _ (fun c lv vis hv => ih c lv vis hv)
          (sortStrings cs) (level + 1) (name :: visited)
          (List.nodup_cons.mpr ⟨hm, h⟩)

theorem writeChildrenF_output_names {cm : ChildrenMap}
    (f : String → Nat → List String → List (Nat × String) × List String)
    (hf : ∀ c lv vis d m, (d, m) ∈ (f c lv vis).1 → m = c ∨ ∃ e ∈ cm, m ∈ e.2) :
    ∀ (cs : List String) (lv : Nat) (vis : List String) (d : Nat) (m : String),
      (d, m) ∈ (writeChildrenF f cs lv vis).1 → m ∈ cs ∨ ∃ e ∈ cm, m ∈ e.2 := by
  intro cs
  induction cs with
  | nil => intro lv vis d m hm; simp [writeChildrenF_nil] at hm
  | cons c cs ih =>
    intro lv vis d m hm
    rw [writeChildrenF_cons] at hm
    dsimp only at hm
    rcases List.mem_append.mp hm with h1 | h1
    · rcases hf c lv vis d m h1 with h2 | h2
      · exact Or.inl (h2 ▸ List.mem_cons_self c cs)
      · exact Or.inr h2
    · rcases ih lv _ d m h1 with h2 | h2
      · exact Or.inl (List.mem_cons_of_mem c h2)
      · exact Or.inr h2

theorem writeNode_output_names (cm : ChildrenMap) :
    ∀ (fuel : Nat) (name : String) (level : Nat) (visited : List String)
      (d : Nat) (m : String),
      (d, m) ∈ (writeNode cm fuel name level visited).1 →
        m = name ∨ ∃ e ∈ cm, m ∈ e.2 := by
  intro fuel
  induction fuel with
  | zero => intro name level visited d m hm; simp [writeNode_zero] at hm
  | succ fuel ih =>
    intro name level visited d m hm
    by_cases h : name ∈ visited
    · rw [writeNode_succ_mem cm h] at hm; simp at hm
    · cases hcs : alistLookup cm name with
      | none =>
        rw [writeNode_succ_none cm h hcs] at hm
        simp at hm
        exact Or.inl hm.2
      | some cs =>
        rw [writeNode_succ_some cm h hcs] at hm
        dsimp only at hm
        rcases List.mem_cons.mp hm with h1 | h1
        · exact Or.inl (congrArg Prod.snd h1)
        · rcases writeChildrenF_output_names
            (fun c lv vis => writeNode cm fuel c lv vis)
            (fun c lv vis d' m' hm' => ih c lv vis d' m' hm')
            (sortStrings cs) (level + 1) (name :: visited) d m h1 with h2 | h2
          · exact Or.inr ⟨(name, cs), mem_of_alistLookup_eq hcs,
              mem_sortStrings.mp h2⟩
          · exact Or.inr h2

theorem writeChildrenF_levels
    (f : String → Nat → List String → List (Nat × String) × List String)
    (hf : ∀ c lv vis d m, (d, m) ∈ (f c lv vis).1 → lv ≤ d) :
    ∀ (cs : List String) (lv : Nat) (vis : List String) (d : Nat) (m : String),
      (d, m) ∈ (writeChildrenF f cs lv vis).1 → lv ≤ d := by
  intro cs
  induction cs with
  | nil => intro lv vis d m hm; simp [writeChildrenF_nil] at hm
  | cons c cs ih =>
    intro lv vis d m hm
    rw [writeChildrenF_cons] at hm
    dsimp only at hm
    rcases List.mem_append.mp hm with h1 | h1
    · exact hf c lv vis d m h1
    · exact ih lv _ d m h1

theorem writeNode_levels (cm : ChildrenMap) :
    ∀ (fuel : Nat) (name : String) (level : Nat) (visited : List String)
      (d : Nat) (m : String),
      (d, m) ∈ (writeNode cm fuel name level visited).1 → level ≤ d := by
  intro fuel
  induction fuel with
  | zero => intro name level visited d m hm; simp [writeNode_zero] at hm
  | succ fuel ih =>
    intro name level visited d m hm
    by_cases h : name ∈ visited
    · rw [writeNode_succ_mem cm h] at hm; simp at hm
    · cases hcs : alistLookup cm name with
      | none =>
        rw [writeNode_succ_none cm h hcs] at hm
        simp at hm
        exact hm.1 ▸ le_refl level
      | some cs =>
        rw [writeNode_succ_some cm h hcs] at hm
        dsimp only at hm
        rcases List.mem_cons.mp hm with h1 | h1
        · have : d = level := congrArg Prod.fst h1
          exact this ▸ le_refl level
        · have := writeChildrenF_levels
            (fun c lv vis => writeNode cm fuel c lv vis)
            (fun c lv vis d' m' hm' => ih c lv vis d' m' hm')
            (sortStrings cs) (level + 1) (name :: visited) d m h1
          omega

theorem writeNode_filter_level (cm : ChildrenMap) (fuel : Nat) (name : String)
    (level : Nat) (visited : List String) :
    ((writeNode cm fuel name level visited).1.filter
        (fun p => decide (p.1 = level)))
      = if fuel ≠ 0 ∧ name ∉ visited then [(level, name)] else [] := by
  cases fuel with
  | zero => simp [writeNode_zero]
  | succ fuel =>
    by_cases h : name ∈ visited
    · rw [writeNode_succ_mem cm h]
      simp [h]
    · cases hcs : alistLookup cm name with
      | none =>
        rw [writeNode_succ_none cm h hcs]
        simp [h]
      | some cs =>
        rw [writeNode_succ_some cm h hcs]
        dsimp only
        rw [List.filter_cons]
        have hrest : ((writeChildrenF (fun c lv vis => writeNode cm fuel c lv vis)
            (sortStrings cs) (level + 1) (name :: visited)).1.filter
              (fun p => decide (p.1 = level))) = [] := by
          rw [List.filter_eq_nil_iff]
          intro p hp
          have hlev := writeChildrenF_levels
            (fun c lv vis => writeNode cm fuel c lv vis)
            (fun c lv vis d' m' hm' => writeNode_levels cm fuel c lv vis d' m' hm')
            (sortStrings cs) (level + 1) (name :: visited) p.1 p.2
            (by simpa using hp)
          simp only [decide_eq_true_eq]
          omega
        rw [hrest]
        simp [h]

/-! ## Fuel sufficiency -/

theorem writeNode_fuel_mono (cm : ChildrenMap) :
    ∀ (fuel : Nat) (name : String) (level : Nat) (visited : List String),
      writeNodeBound cm name visited ≤ fuel →
      writeNode cm (fuel + 1) name level visited
        = writeNode cm fuel name level visited := by
  intro fuel
  induction fuel with
  | zero =>
    intro name level visited h
    exact absurd h (by simp [writeNodeBound])
  | succ fuel ih =>
    intro name level visited h
    by_cases hm : name ∈ visited
    · rw [writeNode_succ_mem cm hm, writeNode_succ_mem cm hm]
    · cases hcs : alistLookup cm name with
      | none => rw [writeNode_succ_none cm hm hcs, writeNode_succ_none cm hm hcs]
      | some cs =>
        rw [writeNode_succ_some cm hm hcs, writeNode_succ_some cm hm hcs]
        have key : ∀ (ds : List String), (∀ c ∈ ds, c ∈ childNameFinset cm) →
            ∀ (lv : Nat) (vis : List String), (∀ x, x ∈ name :: visited → x ∈ vis) →
            writeChildrenF (fun c lv' vis' => writeNode cm (fuel + 1) c lv' vis')
                ds lv vis
              = writeChildrenF (fun c lv' vis' => writeNode cm fuel c lv' vis')
                  ds lv vis := by
          intro ds
          induction ds with
          | nil => intro _ lv vis _; rfl
          | cons c ds ihd =>
            intro hsub lv vis hvis
            rw [writeChildrenF_cons, writeChildrenF_cons]
            have hc : c ∈ childNameFinset cm := hsub c (List.mem_cons_self c ds)
            have hbound : writeNodeBound cm c vis ≤ fuel := by
              unfold writeNodeBound at h ⊢
              have hnameA : name ∈ insert name (childNameFinset cm) \ visited.toFinset := by
                rw [Finset.mem_sdiff]
                exact ⟨Finset.mem_insert_self _ _,
                  by rw [List.mem_toFinset]; exact hm⟩
              have hcardA :
                  1 ≤ (insert name (childNameFinset cm) \ visited.toFinset).card :=
                Finset.card_pos.mpr ⟨name, hnameA⟩
              have hsubset : insert c (childNameFinset cm) \ vis.toFinset
                  ⊆ (insert name (childNameFinset cm) \ visited.toFinset).erase name := by
                intro x hx
                rw [Finset.mem_sdiff] at hx
                obtain ⟨hx1, hx2⟩ := hx
                have hxCN : x ∈ childNameFinset cm := by
                  rcases Finset.mem_insert.mp hx1 with h' | h'
                  · exact h' ▸ hc
                  · exact h'
                have hxname : x ≠ name := by
                  intro he
                  subst he
                  exact hx2 (List.mem_toFinset.mpr
                    (hvis x (List.mem_cons_self x visited)))
                rw [Finset.mem_erase]
                refine ⟨hxname,
                  Finset.mem_sdiff.mpr ⟨Finset.mem_insert_of_mem hxCN, ?_⟩⟩
                intro hxv
                exact hx2 (List.mem_toFinset.mpr
                  (hvis x (List.mem_cons_of_mem name (List.mem_toFinset.mp hxv))))
              have hcard := Finset.card_le_card hsubset
              rw [Finset.card_erase_of_mem hnameA] at hcard
              omega
            rw [ih c lv vis hbound]
            have hvis' : ∀ x, x ∈ name :: visited →
                x ∈ (writeNode cm fuel c lv vis).2 := fun x hx =>
              writeNode_visited_mono cm fuel c lv vis (hvis x hx)
            rw [ihd (fun c' hc' => hsub c' (List.mem_cons_of_mem c hc')) lv _ hvis']
        have hsub : ∀ c ∈ sortStrings cs, c ∈ childNameFinset cm := by
          intro c hcmem
          unfold childNameFinset
          rw [List.mem_toFinset]
          exact List.mem_flatMap.mpr ⟨(name, cs), mem_of_alistLookup_eq hcs,
            mem_sortStrings.mp hcmem⟩
        rw [key (sortStrings cs) hsub (level + 1) (name :: visited) (fun x hx => hx)]

theorem writeNode_fuel_ge (cm : ChildrenMap) (name : String) (level : Nat)
    (visited : List String) :
    ∀ (k : Nat),
      writeNode cm (writeNodeBound cm name visited + k) name level visited
        = writeNode cm (writeNodeBound cm name visited) name level visited := by
  intro k
  induction k with
  | zero => rfl
  | succ k ih =>
    have hstep := writeNode_fuel_mono cm (writeNodeBound cm name visited + k)
      name level visited (Nat.le_add_right _ k)
    calc writeNode cm (writeNodeBound cm name visited + (k + 1)) name level visited
        = writeNode cm ((writeNodeBound cm name visited + k) + 1) name level visited := by
          rw [Nat.add_succ]
      _ = writeNode cm (writeNodeBound cm name visited + k) name level visited := hstep
      _ = writeNode cm (writeNodeBound cm name visited) name level visited := ih

theorem writeNode_fuel_eq (cm : ChildrenMap) (name : String) (level : Nat)
    (visited : List String) {f₁ f₂ : Nat}
    (h₁ : writeNodeBound cm name visited ≤ f₁)
    (h₂ : writeNodeBound cm name visited ≤ f₂) :
    writeNode cm f₁ name level visited = writeNode cm f₂ name level visited := by
  obtain ⟨k₁, rfl⟩ := Nat.exists_eq_add_of_le h₁
  obtain ⟨k₂, rfl⟩ := Nat.exists_eq_add_of_le h₂
  rw [writeNode_fuel_ge, writeNode_fuel_ge]

theorem writeNode_output_nodup (cm : ChildrenMap) (fuel : Nat) (name : String)
    (level : Nat) (visited : List String) (h : visited.Nodup) :
    ((writeNode cm fuel name level visited).1.map Prod.snd).Nodup := by
  have h2 := writeNode_visited_nodup cm fuel name level visited h
  rw [writeNode_visited_eq] at h2
  have h3 := (List.nodup_append.mp h2).1
  simpa using h3

/-! ## Claim C8 -/

/-- C8: rendering terminates on every finite children map, including
cyclic ones: any two fuels of at least `writeNodeBound` (one more than the
number of unvisited candidate names) give the same result — every
recursive call either returns at once on a visited name or strictly grows
the visited set — and the number of emitted lines of one top-level call is
bounded by one plus the number of distinct child names. -/
theorem write_hierarchy_terminates (cm : ChildrenMap) (name : String)
    (level : Nat) (visited : List String) {f₁ f₂ : Nat}
    (h₁ : writeNodeBound cm name visited ≤ f₁)
    (h₂ : writeNodeBound cm name visited ≤ f₂) (hnd : visited.Nodup) :
    writeNode cm f₁ name level visited = writeNode cm f₂ name level visited
      ∧ (writeNode cm f₁ name level visited).1.length
          ≤ (childNameFinset cm).card + 1 := by
  refine ⟨writeNode_fuel_eq cm name level visited h₁ h₂, ?_⟩
  have hnodup := writeNode_output_nodup cm f₁ name level visited hnd
  have hsub : ((writeNode cm f₁ name level visited).1.map Prod.snd).toFinset
      ⊆ insert name (childNameFinset cm) := by
    intro m hmem
    rw [List.mem_toFinset] at hmem
    obtain ⟨p, hp, hpm⟩ := List.mem_map.mp hmem
    rcases writeNode_output_names cm f₁ name level visited p.1 p.2
        (by simpa using hp) with h' | h'
    · rw [← hpm, h']
      exact Finset.mem_insert_self _ _
    · obtain ⟨e, he, hme⟩ := h'
      refine Finset.mem_insert_of_mem ?_
      unfold childNameFinset
      rw [List.mem_toFinset, ← hpm]
      exact List.mem_flatMap.mpr ⟨e, he, hme⟩
  calc (writeNode cm f₁ name level visited).1.length
      = ((writeNode cm f₁ name level visited).1.map Prod.snd).length := by
        rw [List.length_map]
    _ = ((writeNode cm f₁ name level visited).1.map Prod.snd).toFinset.card :=
        (List.toFinset_card_of_nodup hnodup).symm
    _ ≤ (insert name (childNameFinset cm)).card := Finset.card_le_card hsub
    _ ≤ (childNameFinset cm).card + 1 := Finset.card_insert_le _ _

/-- Witness for C8 on the cyclic map `a → b → a`. -/
theorem write_hierarchy_terminates_witness :
    (writeNode [("a", ["b"]), ("b", ["a"])] 3 "a" 0 []
        = writeNode [("a", ["b"]), ("b", ["a"])] 5 "a" 0 [])
      ∧ (writeNode [("a", ["b"]), ("b", ["a"])] 3 "a" 0 []).1.length
          ≤ (childNameFinset [("a", ["b"]), ("b", ["a"])]).card + 1 :=
  write_hierarchy_terminates [("a", ["b"]), ("b", ["a"])] "a" 0 []
    (by decide) (by decide) List.nodup_nil

/-! ## Pipeline characterization lemmas -/

theorem sortStrings_eq_nil_iff {l : List String} : sortStrings l = [] ↔ l = [] := by
  constructor
  · intro h
    have hp := sortStrings_perm l
    rw [h] at hp
    exact hp.nil_eq.symm
  · intro h
    rw [h]
    rfl

theorem mem_allChildrenOf {cm : ChildrenMap} {x : String} :
    x ∈ allChildrenOf cm ↔ ∃ e ∈ cm, x ∈ e.2 := by
  have haux : ∀ (cm' : ChildrenMap) (acc : List String) (x : String),
      x ∈ cm'.foldl (fun acc e => acc ++ e.2) acc
        ↔ x ∈ acc ∨ ∃ e ∈ cm', x ∈ e.2 := by
    intro cm'
    induction cm' with
    | nil => intro acc x; simp
    | cons e rest ih =>
      intro acc x
      rw [List.foldl_cons, ih]
      simp [List.mem_append, or_assoc]
  have h := haux cm [] x
  simpa [allChildrenOf] using h

theorem isRootIn_eq_true_iff {cm : ChildrenMap} {name : String} :
    isRootIn cm name = true ↔ ∀ e ∈ cm, name ∉ e.2 := by
  unfold isRootIn
  rw [Bool.not_eq_true', List.any_eq_false]
  simp

theorem mem_find_root_records {records : List DNSRecord} {cm : ChildrenMap}
    {x : String} :
    x ∈ find_root_records records cm
      ↔ ∃ r ∈ records, rootNameNormalize r.name = x ∧ x ∉ allChildrenOf cm := by
  unfold find_root_records
  rw [mem_sortStrings, List.mem_dedup, List.mem_filterMap]
  constructor
  · rintro ⟨r, hr, hx⟩
    by_cases hmem : rootNameNormalize r.name ∈ allChildrenOf cm
    · rw [if_pos hmem] at hx
      exact Option.noConfusion hx
    · rw [if_neg hmem] at hx
      have := Option.some.inj hx
      exact ⟨r, hr, this, this ▸ hmem⟩
  · rintro ⟨r, hr, hxr, hx⟩
    refine ⟨r, hr, ?_⟩
    rw [if_neg (hxr ▸ hx), hxr]

theorem rerootStep_eq (cm : ChildrenMap)
    (acc : List (String × List String) × List String) (r : DNSRecord) :
    rerootStep cm acc r
      = match rerootEntry cm r with
        | some p => (ipAppend acc.1 p.1 p.2, acc.2 ++ [p.2])
        | none => acc := by
  unfold rerootStep rerootEntry
  by_cases h : isRootIn cm (pyNormalize r.name) = true
      ∧ pyNormalize r.content ≠ "" ∧ r.type ∈ rerootTypes
  · rw [if_pos h, if_pos h]
  · rw [if_neg h, if_neg h]

theorem rerootScan_aux (cm : ChildrenMap) :
    ∀ (records : List DNSRecord) (acc : List (String × List String) × List String),
      records.foldl (rerootStep cm) acc
        = ((records.filterMap (rerootEntry cm)).foldl
              (fun m p => ipAppend m p.1 p.2) acc.1,
           acc.2 ++ (records.filterMap (rerootEntry cm)).map Prod.snd) := by
  intro records
  induction records with
  | nil => intro acc; simp
  | cons r rs ih =>
    intro acc
    rw [List.foldl_cons]
    cases he : rerootEntry cm r with
    | none =>
      have hstep : rerootStep cm acc r = acc := by rw [rerootStep_eq, he]
      rw [hstep, ih, List.filterMap_cons, he]
    | some p =>
      have hstep : rerootStep cm acc r = (ipAppend acc.1 p.1 p.2, acc.2 ++ [p.2]) := by
        rw [rerootStep_eq, he]
      rw [hstep, ih, List.filterMap_cons, he]
      simp [List.foldl_cons, List.append_assoc]

theorem rerootScan_eq (cm : ChildrenMap) (records : List DNSRecord) :
    rerootScan cm records
      = ((records.filterMap (rerootEntry cm)).foldl
            (fun m p => ipAppend m p.1 p.2) [],
         (records.filterMap (rerootEntry cm)).map Prod.snd) := by
  unfold rerootScan
  rw [rerootScan_aux]
  rfl

theorem ipAppend_lookup (m : List (String × List String)) (k v k' : String) :
    alistLookup (ipAppend m k v) k'
      = if k = k' then some ((alistLookup m k).getD [] ++ [v])
        else alistLookup m k' := by
  cases hl : alistLookup m k with
  | none =>
    simp only [ipAppend, hl, Option.getD_none]
    rw [alistLookup_append]
    by_cases hk : k = k'
    · subst hk
      rw [hl]
      simp [alistLookup]
    · have hk2 : ¬ k = k' := hk
      cases h2 : alistLookup m k' with
      | none => simp [h2, alistLookup, hk2, if_neg hk]
      | some vs => simp [h2, if_neg hk]
  | some vs =>
    simp only [ipAppend, hl, Option.getD_some]
    rw [alistLookup_alistInsert]

theorem ipFold_lookup_getD :
    ∀ (ps : List (String × String)) (m : List (String × List String)) (k : String),
      (alistLookup (ps.foldl (fun m p => ipAppend m p.1 p.2) m) k).getD []
        = (alistLookup m k).getD []
            ++ (ps.filter (fun p => decide (p.1 = k))).map Prod.snd := by
  intro ps
  induction ps with
  | nil => intro m k; simp
  | cons p ps ih =>
    intro m k
    rw [List.foldl_cons, ih, List.filter_cons]
    by_cases hk : p.1 = k
    · rw [if_pos (by simpa using hk)]
      rw [ipAppend_lookup, if_pos hk, hk]
      simp [List.append_assoc]
    · rw [if_neg (by simpa using hk)]
      rw [ipAppend_lookup, if_neg hk]

theorem ipFold_keys :
    ∀ (ps : List (String × String)) (m : List (String × List String)) (k : String),
      (k ∈ (ps.foldl (fun m p => ipAppend m p.1 p.2) m).map Prod.fst)
        ↔ k ∈ m.map Prod.fst ∨ ∃ p ∈ ps, p.1 = k := by
  intro ps
  induction ps with
  | nil => intro m k; simp
  | cons p ps ih =>
    intro m k
    rw [List.foldl_cons, ih]
    have hmem : k ∈ (ipAppend m p.1 p.2).map Prod.fst
        ↔ k = p.1 ∨ k ∈ m.map Prod.fst := by
      rw [← alistLookup_isSome_iff_mem_keys, ← alistLookup_isSome_iff_mem_keys]
      rw [ipAppend_lookup]
      by_cases hk : p.1 = k
      · simp [hk]
      · have hk2 : ¬ k = p.1 := fun h => hk h.symm
        simp [hk, hk2]
    rw [hmem]
    constructor
    · rintro ((h | h) | ⟨q, hq, hqk⟩)
      · exact Or.inr ⟨p, List.mem_cons_self p ps, h.symm⟩
      · exact Or.inl h
      · exact Or.inr ⟨q, List.mem_cons_of_mem p hq, hqk⟩
    · rintro (h | ⟨q, hq, hqk⟩)
      · exact Or.inl (Or.inr h)
      · rcases List.mem_cons.mp hq with h1 | h1
        · subst h1
          exact Or.inl (Or.inl hqk.symm)
        · exact Or.inr ⟨q, h1, hqk⟩

theorem mem_finalRoots {records : List DNSRecord} {cm : ChildrenMap}
    {ipm : List (String × List String)} {moved : List String} {x : String} :
    x ∈ finalRoots records cm ipm moved
      ↔ (x ∈ find_root_records records cm ∧ x ∉ moved) ∨ x ∈ ipm.map Prod.fst := by
  unfold finalRoots
  rw [mem_sortStrings, List.mem_dedup, List.mem_append, mem_sortStrings,
    List.mem_filter]
  simp

theorem foldl_append_eq_flatMap {α β : Type} (g : α → List β) :
    ∀ (l : List α) (acc : List β),
      l.foldl (fun acc x => acc ++ g x) acc = acc ++ l.flatMap g := by
  intro l
  induction l with
  | nil => intro acc; simp
  | cons x xs ih =>
    intro acc
    rw [List.foldl_cons, ih, List.flatMap_cons, List.append_assoc]

theorem mindmapNodes_eq_flatMap (records : List DNSRecord) :
    mindmapNodes records
      = (finalRoots records (build_hierarchy records).1
            (rerootScan (build_hierarchy records).1 records).1
            (rerootScan (build_hierarchy records).1 records).2).flatMap
          (renderRoot (build_hierarchy records).1
            (rerootScan (build_hierarchy records).1 records).1
            (mindmapFuel records)) := by
  unfold mindmapNodes
  rw [foldl_append_eq_flatMap]
  rfl

/-! ## Claim C3 -/

/-- C3: for records `www CNAME example.com` and `example.com A 1.2.3.4`,
`example.com` is the initial root, and after re-rooting the rendered
output has `1.2.3.4` as the only final root at depth 0, `example.com` as
its child at depth 1, and `www` as a child of `example.com` at depth 2. -/
theorem root_correctness_example :
    find_root_records
        [⟨"www", "CNAME", "example.com"⟩, ⟨"example.com", "A", "1.2.3.4"⟩]
        (build_hierarchy
          [⟨"www", "CNAME", "example.com"⟩, ⟨"example.com", "A", "1.2.3.4"⟩]).1
      = ["example.com"]
    ∧ mindmapNodes
        [⟨"www", "CNAME", "example.com"⟩, ⟨"example.com", "A", "1.2.3.4"⟩]
      = [(0, "1.2.3.4"), (1, "example.com"), (2, "www")]
    ∧ mindmapLines
        [⟨"www", "CNAME", "example.com"⟩, ⟨"example.com", "A", "1.2.3.4"⟩]
      = ["# DNS Record Hierarchy", "", "- 1.2.3.4", "  - example.com",
          "    - www"] := by
  refine ⟨by decide, by decide, by decide⟩

/-! ## Claim C1 -/

/-- C1 counterexample: with records `r1 TXT x`, `r2 TXT x`, `c CNAME r1`,
`c CNAME r2`, the name `c` is a child of both final roots `r1` and `r2`,
yet it is emitted TWICE in the whole output (once under each root), not
once: the visited set is not shared across the render pass. -/
theorem shared_visited_counterexample :
    "r1" ∈ finalRoots
        [⟨"r1", "TXT", "x"⟩, ⟨"r2", "TXT", "x"⟩,
          ⟨"c", "CNAME", "r1"⟩, ⟨"c", "CNAME", "r2"⟩]
        (build_hierarchy [⟨"r1", "TXT", "x"⟩, ⟨"r2", "TXT", "x"⟩,
          ⟨"c", "CNAME", "r1"⟩, ⟨"c", "CNAME", "r2"⟩]).1
        (rerootScan (build_hierarchy [⟨"r1", "TXT", "x"⟩, ⟨"r2", "TXT", "x"⟩,
          ⟨"c", "CNAME", "r1"⟩, ⟨"c", "CNAME", "r2"⟩]).1
          [⟨"r1", "TXT", "x"⟩, ⟨"r2", "TXT", "x"⟩,
            ⟨"c", "CNAME", "r1"⟩, ⟨"c", "CNAME", "r2"⟩]).1
        (rerootScan (build_hierarchy [⟨"r1", "TXT", "x"⟩, ⟨"r2", "TXT", "x"⟩,
          ⟨"c", "CNAME", "r1"⟩, ⟨"c", "CNAME", "r2"⟩]).1
          [⟨"r1", "TXT", "x"⟩, ⟨"r2", "TXT", "x"⟩,
            ⟨"c", "CNAME", "r1"⟩, ⟨"c", "CNAME", "r2"⟩]).2
    ∧ "r2" ∈ finalRoots
        [⟨"r1", "TXT", "x"⟩, ⟨"r2", "TXT", "x"⟩,
          ⟨"c", "CNAME", "r1"⟩, ⟨"c", "CNAME", "r2"⟩]
        (build_hierarchy [⟨"r1", "TXT", "x"⟩, ⟨"r2", "TXT", "x"⟩,
          ⟨"c", "CNAME", "r1"⟩, ⟨"c", "CNAME", "r2"⟩]).1
        (rerootScan (build_hierarchy [⟨"r1", "TXT", "x"⟩, ⟨"r2", "TXT", "x"⟩,
          ⟨"c", "CNAME", "r1"⟩, ⟨"c", "CNAME", "r2"⟩]).1
          [⟨"r1", "TXT", "x"⟩, ⟨"r2", "TXT", "x"⟩,
            ⟨"c", "CNAME", "r1"⟩, ⟨"c", "CNAME", "r2"⟩]).1
        (rerootScan (build_hierarchy [⟨"r1", "TXT", "x"⟩, ⟨"r2", "TXT", "x"⟩,
          ⟨"c", "CNAME", "r1"⟩, ⟨"c", "CNAME", "r2"⟩]).1
          [⟨"r1", "TXT", "x"⟩, ⟨"r2", "TXT", "x"⟩,
            ⟨"c", "CNAME", "r1"⟩, ⟨"c", "CNAME", "r2"⟩]).2
    ∧ ("r1" : String) ≠ "r2"
    ∧ "c" ∈ childrenOf (build_hierarchy [⟨"r1", "TXT", "x"⟩, ⟨"r2", "TXT", "x"⟩,
          ⟨"c", "CNAME", "r1"⟩, ⟨"c", "CNAME", "r2"⟩]).1 "r1"
    ∧ "c" ∈ childrenOf (build_hierarchy [⟨"r1", "TXT", "x"⟩, ⟨"r2", "TXT", "x"⟩,
          ⟨"c", "CNAME", "r1"⟩, ⟨"c", "CNAME", "r2"⟩]).1 "r2"
    ∧ (mindmapNodes [⟨"r1", "TXT", "x"⟩, ⟨"r2", "TXT", "x"⟩,
          ⟨"c", "CNAME", "r1"⟩, ⟨"c", "CNAME", "r2"⟩]).countP
        (fun p => decide (p.2 = "c")) = 2 := by
  refine ⟨by decide, by decide, by decide, by decide, by decide, by decide⟩

/-- C1 amended: the visited set is fresh for each top-level
`write_hierarchy` invocation rather than shared across the render pass; a
name reachable from two final roots is emitted once under each of them,
and within a single invocation (starting from any duplicate-free visited
set) every name is emitted at most once and never a name that was already
visited. -/
theorem visited_fresh_per_call (cm : ChildrenMap) (fuel : Nat) (name : String)
    (level : Nat) (visited : List String) (h : visited.Nodup) :
    ((writeNode cm fuel name level visited).1.map Prod.snd).Nodup
    ∧ ∀ m ∈ (writeNode cm fuel name level visited).1.map Prod.snd,
        m ∉ visited := by
  refine ⟨writeNode_output_nodup cm fuel name level visited h, ?_⟩
  have h2 := writeNode_visited_nodup cm fuel name level visited h
  rw [writeNode_visited_eq] at h2
  have hdisj := (List.nodup_append.mp h2).2.2
  intro m hm hmv
  exact hdisj (List.mem_reverse.mpr hm) hmv

/-- Witness for the amended C1 on the counterexample's children map. -/
theorem visited_fresh_per_call_witness :
    (((writeNode [("r1", ["c"]), ("r2", ["c"])] 3 "r1" 0 []).1.map
        Prod.snd).Nodup
      ∧ ∀ m ∈ (writeNode [("r1", ["c"]), ("r2", ["c"])] 3 "r1" 0 []).1.map
          Prod.snd, m ∉ ([] : List String)) :=
  visited_fresh_per_call [("r1", ["c"]), ("r2", ["c"])] 3 "r1" 0 []
    List.nodup_nil

/-! ## Claim C2 -/

/-- C2 counterexample: for the two-record cycle `a CNAME b`, `b CNAME a`,
rendering terminates but the output contains NEITHER name: both names are
children, the root set is empty, and nothing at all is emitted — each name
appears zero times, not once. -/
theorem cycle_output_counterexample :
    mindmapNodes [⟨"a", "CNAME", "b"⟩, ⟨"b", "CNAME", "a"⟩] = []
    ∧ (mindmapNodes [⟨"a", "CNAME", "b"⟩, ⟨"b", "CNAME", "a"⟩]).countP
        (fun p => decide (p.2 = "a")) ≠ 1
    ∧ (mindmapNodes [⟨"a", "CNAME", "b"⟩, ⟨"b", "CNAME", "a"⟩]).countP
        (fun p => decide (p.2 = "b")) ≠ 1 := by
  refine ⟨by decide, by decide, by decide⟩

/-- C2 amended: given records A and B forming a CNAME two-cycle (each
one's normalized content is the other's normalized name; the two
normalized names are distinct, non-empty, and whitespace-clean so both
normalizations agree), rendering terminates and emits NOTHING: both names
are children of each other, the root set is empty, and neither name
appears in the output. -/
theorem cycle_renders_empty (a b : DNSRecord)
    (hta : a.type = "CNAME") (htb : b.type = "CNAME")
    (hab : pyNormalize a.content = pyNormalize b.name)
    (hba : pyNormalize b.content = pyNormalize a.name)
    (hne : pyNormalize a.name ≠ pyNormalize b.name)
    (hna : pyNormalize a.name ≠ "") (hnb : pyNormalize b.name ≠ "")
    (hra : rootNameNormalize a.name = pyNormalize a.name)
    (hrb : rootNameNormalize b.name = pyNormalize b.name) :
    mindmapNodes [a, b] = [] := by
  have hrm : buildRecordMap [a, b]
      = alistInsert (alistInsert [] (pyNormalize a.name) a)
          (pyNormalize b.name) b := rfl
  have hrm_na : alistContains (buildRecordMap [a, b]) (pyNormalize a.name)
      = true := by
    rw [hrm, alistContains_alistInsert, alistContains_alistInsert]
    simp
  have hrm_nb : alistContains (buildRecordMap [a, b]) (pyNormalize b.name)
      = true := by
    rw [hrm, alistContains_alistInsert]
    simp
  have hea : edgeOf (buildRecordMap [a, b]) a
      = some (pyNormalize b.name, pyNormalize a.name) := by
    simp only [edgeOf]
    rw [hab, hta]
    rw [if_neg hnb, if_pos (show ("CNAME" : String) ∈ cnameTypes by decide),
      if_pos hrm_nb]
  have heb : edgeOf (buildRecordMap [a, b]) b
      = some (pyNormalize a.name, pyNormalize b.name) := by
    simp only [edgeOf]
    rw [hba, htb]
    rw [if_neg hna, if_pos (show ("CNAME" : String) ∈ cnameTypes by decide),
      if_pos hrm_na]
  have hcm : (build_hierarchy [a, b]).1
      = [(pyNormalize b.name, [pyNormalize a.name]),
         (pyNormalize a.name, [pyNormalize b.name])] := by
    show List.foldl (buildStep (buildRecordMap [a, b])) [] [a, b] = _
    rw [List.foldl_cons, List.foldl_cons, List.foldl_nil]
    have h1 : buildStep (buildRecordMap [a, b]) [] a
        = [(pyNormalize b.name, [pyNormalize a.name])] := by
      unfold buildStep
      rw [hea]
      rfl
    have h2 : buildStep (buildRecordMap [a, b])
        [(pyNormalize b.name, [pyNormalize a.name])] b
        = [(pyNormalize b.name, [pyNormalize a.name]),
           (pyNormalize a.name, [pyNormalize b.name])] := by
      unfold buildStep
      rw [heb]
      show addEdge [(pyNormalize b.name, [pyNormalize a.name])]
          (pyNormalize a.name) (pyNormalize b.name) = _
      unfold addEdge
      have hnn : ¬ pyNormalize b.name = pyNormalize a.name := fun h => hne h.symm
      rw [show alistLookup [(pyNormalize b.name, [pyNormalize a.name])]
          (pyNormalize a.name) = none by simp [alistLookup, hnn]]
      rfl
    rw [h1, h2]
  have hchildren : allChildrenOf (build_hierarchy [a, b]).1
      = [pyNormalize a.name, pyNormalize b.name] := by
    rw [hcm]
    rfl
  have hroots : find_root_records [a, b] (build_hierarchy [a, b]).1 = [] := by
    simp only [find_root_records]
    rw [hchildren, sortStrings_eq_nil_iff, List.dedup_eq_nil,
      List.filterMap_eq_nil_iff]
    intro r hr
    rcases List.mem_cons.mp hr with h1 | h1
    · subst h1
      show (if rootNameNormalize r.name
          ∈ [pyNormalize r.name, pyNormalize b.name] then (none : Option String)
          else some (rootNameNormalize r.name)) = none
      rw [hra]
      exact if_pos (List.mem_cons_self _ _)
    · rw [List.mem_singleton] at h1
      subst h1
      show (if rootNameNormalize r.name
          ∈ [pyNormalize a.name, pyNormalize r.name] then (none : Option String)
          else some (rootNameNormalize r.name)) = none
      rw [hrb]
      exact if_pos (by simp)
  have hira : isRootIn (build_hierarchy [a, b]).1 (pyNormalize a.name)
      = false := by
    rw [hcm]
    simp [isRootIn]
  have hirb : isRootIn (build_hierarchy [a, b]).1 (pyNormalize b.name)
      = false := by
    rw [hcm]
    simp [isRootIn]
  have hrea : rerootEntry (build_hierarchy [a, b]).1 a = none := by
    unfold rerootEntry
    exact if_neg fun h => by rw [hira] at h; exact Bool.noConfusion h.1
  have hreb : rerootEntry (build_hierarchy [a, b]).1 b = none := by
    unfold rerootEntry
    exact if_neg fun h => by rw [hirb] at h; exact Bool.noConfusion h.1
  have hscan : rerootScan (build_hierarchy [a, b]).1 [a, b] = ([], []) := by
    rw [rerootScan_eq]
    rw [show List.filterMap (rerootEntry (build_hierarchy [a, b]).1) [a, b]
        = [] by
      rw [List.filterMap_eq_nil_iff]
      intro r hr
      rcases List.mem_cons.mp hr with h1 | h1
      · subst h1; exact hrea
      · rw [List.mem_singleton] at h1; subst h1; exact hreb]
    rfl
  have hfinal : finalRoots [a, b] (build_hierarchy [a, b]).1 [] [] = [] := by
    simp only [finalRoots]
    rw [hroots]
    rfl
  rw [mindmapNodes_eq_flatMap, hscan]
  show (finalRoots [a, b] (build_hierarchy [a, b]).1 [] []).flatMap _ = []
  rw [hfinal]
  rfl

/-- Witness for the amended C2 at the concrete cycle `a ↔ b`. -/
theorem cycle_renders_empty_witness :
    mindmapNodes [⟨"a", "CNAME", "b"⟩, ⟨"b", "CNAME", "a"⟩] = [] :=
  cycle_renders_empty ⟨"a", "CNAME", "b"⟩ ⟨"b", "CNAME", "a"⟩ rfl rfl
    (by decide) (by decide) (by decide) (by decide) (by decide)
    (by decide) (by decide)

/-! ## Counting helpers -/

theorem countP_flatMap_eq {α β : Type} (f : α → List β) (q : β → Bool) :
    ∀ l : List α,
      ((l.flatMap f).countP q) = (l.map (fun a => (f a).countP q)).sum := by
  intro l
  induction l with
  | nil => simp
  | cons a as ih =>
    rw [List.flatMap_cons, List.countP_append, ih]
    simp

theorem countP_restrict {α : Type} (q t : α → Bool)
    (h : ∀ p, q p = true → t p = true) :
    ∀ F : List α, F.countP q = (F.filter t).countP q := by
  intro F
  induction F with
  | nil => rfl
  | cons a as ih =>
    rw [List.filter_cons]
    cases ht : t a with
    | true =>
      rw [if_pos (by simp [ht]), List.countP_cons, List.countP_cons, ih]
    | false =>
      have hq : q a = false := by
        cases hq : q a with
        | false => rfl
        | true => rw [h a hq] at ht; exact Bool.noConfusion ht
      rw [if_neg (by simp [ht]), List.countP_cons, hq, ih]
      simp

theorem sum_if_eq_countP (n : String) :
    ∀ l : List String,
      (l.map (fun d => if d = n then 1 else 0)).sum
        = l.countP (fun d => decide (d = n)) := by
  intro l
  induction l with
  | nil => rfl
  | cons d ds ih =>
    rw [List.map_cons, List.sum_cons, ih, List.countP_cons]
    by_cases hd : d = n
    · simp [hd, Nat.add_comm]
    · simp [hd]

theorem renderRoot_eq_some (cm : ChildrenMap) (ipm : List (String × List String))
    (fuel : Nat) (root : String) {domains : List String}
    (h : alistLookup ipm root = some domains) :
    renderRoot cm ipm fuel root
      = (0, root) :: (sortStrings domains).flatMap
          (fun d => (writeNode cm fuel d 1 []).1) := by
  unfold renderRoot
  rw [h]
  show (0, root) :: ((sortStrings domains).foldl
      (fun acc d => acc ++ (writeNode cm fuel d 1 []).1) [])
    = (0, root) :: (sortStrings domains).flatMap
        (fun d => (writeNode cm fuel d 1 []).1)
  rw [foldl_append_eq_flatMap]
  rfl

/-! ## Claim C10 -/

/-- C10: re-rooting appends to `ip_parent_map` without a duplicate check:
when exactly two records of the list register the same `(content, name)`
pair `(c, n)` (two root records of a re-rootable type with the same
normalized name and content), the name `n` is stored twice in the map's
entry for `c`, the synthetic parent `c` is a final root, and `n` is
emitted exactly twice at depth 1 in the segment rendered under `c`,
because each depth-1 render call starts with a fresh visited set. -/
theorem reroot_duplicate_registration (l : List DNSRecord) (n c : String)
    (hreg : ((l.filterMap (rerootEntry (build_hierarchy l).1)).countP
        (fun p => decide (p = (c, n)))) = 2) :
    ((alistLookup (rerootScan (build_hierarchy l).1 l).1 c).getD []).countP
        (fun d => decide (d = n)) = 2
    ∧ c ∈ finalRoots l (build_hierarchy l).1
        (rerootScan (build_hierarchy l).1 l).1
        (rerootScan (build_hierarchy l).1 l).2
    ∧ ((renderRoot (build_hierarchy l).1 (rerootScan (build_hierarchy l).1 l).1
          (mindmapFuel l) c).countP
        (fun p => decide (p = ((1 : Nat), n)))) = 2 := by
  have hgetD : ((alistLookup (rerootScan (build_hierarchy l).1 l).1 c).getD [])
      = ((l.filterMap (rerootEntry (build_hierarchy l).1)).filter
          (fun p => decide (p.1 = c))).map Prod.snd := by
    rw [rerootScan_eq]
    have h := ipFold_lookup_getD
      (l.filterMap (rerootEntry (build_hierarchy l).1)) [] c
    simpa [alistLookup] using h
  have hcount1 : ((alistLookup (rerootScan (build_hierarchy l).1 l).1 c).getD
      []).countP (fun d => decide (d = n)) = 2 := by
    rw [hgetD, List.countP_map, List.countP_filter]
    rw [← hreg]
    apply List.countP_congr
    intro p _
    constructor
    · intro hp
      simp only [Function.comp_apply, Bool.and_eq_true, decide_eq_true_eq] at hp
      simp [Prod.ext_iff, hp.1, hp.2]
    · intro hp
      simp only [decide_eq_true_eq] at hp
      simp [Function.comp_apply, hp]
  refine ⟨hcount1, ?_, ?_⟩
  · rw [mem_finalRoots]
    right
    rw [rerootScan_eq]
    rw [ipFold_keys]
    right
    have hpos : 0 < ((l.filterMap (rerootEntry (build_hierarchy l).1)).countP
        (fun p => decide (p = (c, n)))) := by rw [hreg]; omega
    obtain ⟨p, hp, hpe⟩ := List.countP_pos_iff.mp hpos
    refine ⟨p, hp, ?_⟩
    have : p = (c, n) := by simpa using hpe
    rw [this]
  · obtain ⟨domains, hdom⟩ :
        ∃ ds, alistLookup (rerootScan (build_hierarchy l).1 l).1 c = some ds := by
      cases hl : alistLookup (rerootScan (build_hierarchy l).1 l).1 c with
      | none =>
        rw [hl] at hcount1
        simp at hcount1
      | some ds => exact ⟨ds, rfl⟩
    rw [renderRoot_eq_some _ _ _ _ hdom]
    rw [List.countP_cons]
    have hzero : (decide (((0 : Nat), c) = ((1 : Nat), n))) = false := by
      simp
    rw [hzero]
    rw [countP_flatMap_eq]
    have hper : ∀ d ∈ sortStrings domains,
        ((writeNode (build_hierarchy l).1 (mindmapFuel l) d 1 []).1.countP
          (fun p => decide (p = ((1 : Nat), n))))
        = if d = n then 1 else 0 := by
      intro d _
      rw [countP_restrict (fun p => decide (p = ((1 : Nat), n)))
        (fun p => decide (p.1 = 1))
        (by
          intro p hp
          simp only [decide_eq_true_eq] at hp ⊢
          rw [hp])]
      rw [writeNode_filter_level]
      rw [if_pos (And.intro (by simp [mindmapFuel]) (List.not_mem_nil d))]
      rw [List.countP_cons]
      simp [Prod.ext_iff]
    rw [List.map_congr_left hper]
    rw [sum_if_eq_countP]
    rw [(sortStrings_perm domains).countP_eq]
    rw [hdom] at hcount1
    simpa using hcount1

/-- Witness for C10: two identical root `A` records `a A 1.2.3.4`. -/
theorem reroot_duplicate_registration_witness :
    ((alistLookup (rerootScan
        (build_hierarchy [⟨"a", "A", "1.2.3.4"⟩, ⟨"a", "A", "1.2.3.4"⟩]).1
        [⟨"a", "A", "1.2.3.4"⟩, ⟨"a", "A", "1.2.3.4"⟩]).1 "1.2.3.4").getD
      []).countP (fun d => decide (d = "a")) = 2
    ∧ "1.2.3.4" ∈ finalRoots [⟨"a", "A", "1.2.3.4"⟩, ⟨"a", "A", "1.2.3.4"⟩]
        (build_hierarchy [⟨"a", "A", "1.2.3.4"⟩, ⟨"a", "A", "1.2.3.4"⟩]).1
        (rerootScan
          (build_hierarchy [⟨"a", "A", "1.2.3.4"⟩, ⟨"a", "A", "1.2.3.4"⟩]).1
          [⟨"a", "A", "1.2.3.4"⟩, ⟨"a", "A", "1.2.3.4"⟩]).1
        (rerootScan
          (build_hierarchy [⟨"a", "A", "1.2.3.4"⟩, ⟨"a", "A", "1.2.3.4"⟩]).1
          [⟨"a", "A", "1.2.3.4"⟩, ⟨"a", "A", "1.2.3.4"⟩]).2
    ∧ ((renderRoot
          (build_hierarchy [⟨"a", "A", "1.2.3.4"⟩, ⟨"a", "A", "1.2.3.4"⟩]).1
          (rerootScan
            (build_hierarchy [⟨"a", "A", "1.2.3.4"⟩, ⟨"a", "A", "1.2.3.4"⟩]).1
            [⟨"a", "A", "1.2.3.4"⟩, ⟨"a", "A", "1.2.3.4"⟩]).1
          (mindmapFuel [⟨"a", "A", "1.2.3.4"⟩, ⟨"a", "A", "1.2.3.4"⟩])
          "1.2.3.4").countP (fun p => decide (p = ((1 : Nat), "a")))) = 2 :=
  reroot_duplicate_registration
    [⟨"a", "A", "1.2.3.4"⟩, ⟨"a", "A", "1.2.3.4"⟩] "a" "1.2.3.4" (by decide)

/-! ## Edge and re-root entry shapes -/

theorem edgeOf_child (rm : RecordMap) (r : DNSRecord) (p c : String)
    (h : edgeOf rm r = some (p, c)) : c = pyNormalize r.name := by
  simp only [edgeOf] at h
  split at h
  · exact Option.noConfusion h
  · split at h
    · split at h
      · have h2 := Option.some.inj h
        rw [Prod.mk.injEq] at h2
        exact h2.2.symm
      · exact Option.noConfusion h
    · split at h
      · split at h
        · split at h
          · have h2 := Option.some.inj h
            rw [Prod.mk.injEq] at h2
            exact h2.2.symm
          · exact Option.noConfusion h
        · exact Option.noConfusion h
      · split at h
        · split at h
          · split at h
            · have h2 := Option.some.inj h
              rw [Prod.mk.injEq] at h2
              exact h2.2.symm
            · exact Option.noConfusion h
          · exact Option.noConfusion h
        · exact Option.noConfusion h

theorem edgeOf_cname_parent (rm : RecordMap) (r : DNSRecord) (p c : String)
    (hty : r.type ∈ cnameTypes) (h : edgeOf rm r = some (p, c)) :
    p = pyNormalize r.content := by
  simp only [edgeOf] at h
  by_cases h0 : pyNormalize r.content = ""
  · rw [if_pos h0] at h
    exact Option.noConfusion h
  · rw [if_neg h0, if_pos hty] at h
    by_cases h1 : alistContains rm (pyNormalize r.content) = true
    · rw [if_pos h1] at h
      have h2 := Option.some.inj h
      rw [Prod.mk.injEq] at h2
      exact h2.1.symm
    · rw [if_neg h1] at h
      exact Option.noConfusion h

theorem rerootEntry_eq_some {cm : ChildrenMap} {r' : DNSRecord}
    {k v : String} (h : rerootEntry cm r' = some (k, v)) :
    k = pyNormalize r'.content ∧ v = pyNormalize r'.name
      ∧ isRootIn cm (pyNormalize r'.name) = true := by
  unfold rerootEntry at h
  split at h
  · rename_i hcond
    have h2 := Option.some.inj h
    rw [Prod.mk.injEq] at h2
    exact ⟨h2.1.symm, h2.2.symm, hcond.1⟩
  · exact Option.noConfusion h

theorem buildRecordMap_contains (l : List DNSRecord) (k : String) :
    alistContains (buildRecordMap l) k = true
      ↔ ∃ r ∈ l, pyNormalize r.name = k := by
  have haux : ∀ (l' : List DNSRecord) (acc : RecordMap) (k : String),
      alistContains
          (l'.foldl (fun m r => alistInsert m (pyNormalize r.name) r) acc) k = true
        ↔ alistContains acc k = true ∨ ∃ r ∈ l', pyNormalize r.name = k := by
    intro l'
    induction l' with
    | nil => intro acc k; simp
    | cons r rs ih =>
      intro acc k
      rw [List.foldl_cons, ih]
      simp only [alistContains_alistInsert, Bool.or_eq_true, decide_eq_true_eq,
        List.mem_cons]
      constructor
      · rintro ((h | h) | ⟨r', hr', he⟩)
        · exact Or.inr ⟨r, Or.inl rfl, h⟩
        · exact Or.inl h
        · exact Or.inr ⟨r', Or.inr hr', he⟩
      · rintro (h | ⟨r', hr' | hr', he⟩)
        · exact Or.inl (Or.inr h)
        · exact Or.inl (Or.inl (hr' ▸ he))
        · exact Or.inr ⟨r', hr', he⟩
  have h := haux l [] k
  simpa [buildRecordMap, alistContains, alistLookup] using h

/-! ## The renderer never reaches a name that is only its own child -/

theorem writeChildrenF_avoids
    (f : String → Nat → List String → List (Nat × String) × List String)
    (s : String)
    (hf : ∀ c lv vis, c ≠ s → ∀ d m, (d, m) ∈ (f c lv vis).1 → m ≠ s) :
    ∀ (cs : List String) (lv : Nat) (vis : List String), (∀ c ∈ cs, c ≠ s) →
      ∀ d m, (d, m) ∈ (writeChildrenF f cs lv vis).1 → m ≠ s := by
  intro cs
  induction cs with
  | nil => intro lv vis _ d m hm; simp [writeChildrenF_nil] at hm
  | cons c cs ih =>
    intro lv vis hcs d m hm
    rw [writeChildrenF_cons] at hm
    dsimp only at hm
    rcases List.mem_append.mp hm with h1 | h1
    · exact hf c lv vis (hcs c (List.mem_cons_self c cs)) d m h1
    · exact ih lv _ (fun c' hc' => hcs c' (List.mem_cons_of_mem c hc')) d m h1

theorem writeNode_avoids (cm : ChildrenMap) (s : String)
    (hA : ∀ p c, c ∈ childrenOf cm p → c = s → p = s) :
    ∀ (fuel : Nat) (name : String) (level : Nat) (visited : List String),
      name ≠ s →
      ∀ d m, (d, m) ∈ (writeNode cm fuel name level visited).1 → m ≠ s := by
  intro fuel
  induction fuel with
  | zero => intro name level visited _ d m hm; simp [writeNode_zero] at hm
  | succ fuel ih =>
    intro name level visited hname d m hm
    by_cases h : name ∈ visited
    · rw [writeNode_succ_mem cm h] at hm; simp at hm
    · cases hcs : alistLookup cm name with
      | none =>
        rw [writeNode_succ_none cm h hcs] at hm
        simp at hm
        exact hm.2 ▸ hname
      | some cs =>
        rw [writeNode_succ_some cm h hcs] at hm
        dsimp only at hm
        rcases List.mem_cons.mp hm with h1 | h1
        · have h2 : m = name := congrArg Prod.snd h1
          exact h2 ▸ hname
        · refine writeChildrenF_avoids _ s
            (fun c lv vis hc d' m' hm' => ih c lv vis hc d' m' hm')
            (sortStrings cs) (level + 1) (name :: visited) ?_ d m h1
          intro c hc hcse
          apply hname
          refine hA name c ?_ hcse
          unfold childrenOf
          rw [hcs]
          exact mem_sortStrings.mp hc

/-! ## Claim C9 -/

/-- C9 counterexample: for the input `s CNAME s`, `s CNAME p`,
`p A 1.2.3.4`, the first record is a self-referential CNAME and no other
record's normalized content equals `s`; `s` does become its own child and
is excluded from the root set and from re-rooting (all as the claim says),
but its name DOES appear in the rendered output (at depth 2, under `p`):
the claim's "appears on no line" fails. -/
theorem self_cname_rendered_counterexample :
    "s" ∈ childrenOf (build_hierarchy [⟨"s", "CNAME", "s"⟩,
        ⟨"s", "CNAME", "p"⟩, ⟨"p", "A", "1.2.3.4"⟩]).1 "s"
    ∧ pyNormalize "p" ≠ "s" ∧ pyNormalize "1.2.3.4" ≠ "s"
    ∧ "s" ∉ find_root_records [⟨"s", "CNAME", "s"⟩, ⟨"s", "CNAME", "p"⟩,
        ⟨"p", "A", "1.2.3.4"⟩]
        (build_hierarchy [⟨"s", "CNAME", "s"⟩, ⟨"s", "CNAME", "p"⟩,
          ⟨"p", "A", "1.2.3.4"⟩]).1
    ∧ "s" ∉ (rerootScan (build_hierarchy [⟨"s", "CNAME", "s"⟩,
        ⟨"s", "CNAME", "p"⟩, ⟨"p", "A", "1.2.3.4"⟩]).1
        [⟨"s", "CNAME", "s"⟩, ⟨"s", "CNAME", "p"⟩, ⟨"p", "A", "1.2.3.4"⟩]).2
    ∧ ((2 : Nat), "s") ∈ mindmapNodes [⟨"s", "CNAME", "s"⟩,
        ⟨"s", "CNAME", "p"⟩, ⟨"p", "A", "1.2.3.4"⟩] := by
  refine ⟨by decide, by decide, by decide, by decide, by decide, by decide⟩

/-- C9 amended: for an input containing a self-referential CNAME-family
record whose normalized name is shared by NO other record and whose
normalized name is no other record's normalized content, the record
becomes its own child, is excluded from the root set and from re-rooting,
and its normalized name appears on no line of the rendered output. -/
theorem self_cname_never_rendered (l : List DNSRecord) (r : DNSRecord)
    (hr : r ∈ l) (hty : r.type ∈ cnameTypes)
    (hself : pyNormalize r.content = pyNormalize r.name)
    (hnonempty : pyNormalize r.name ≠ "")
    (huniq : ∀ r' ∈ l, pyNormalize r'.name = pyNormalize r.name → r' = r)
    (hnopoint : ∀ r' ∈ l, r' ≠ r →
        pyNormalize r'.content ≠ pyNormalize r.name) :
    pyNormalize r.name
        ∈ childrenOf (build_hierarchy l).1 (pyNormalize r.name)
    ∧ pyNormalize r.name ∉ find_root_records l (build_hierarchy l).1
    ∧ pyNormalize r.name ∉ (rerootScan (build_hierarchy l).1 l).2
    ∧ pyNormalize r.name ∉ finalRoots l (build_hierarchy l).1
        (rerootScan (build_hierarchy l).1 l).1
        (rerootScan (build_hierarchy l).1 l).2
    ∧ ∀ node ∈ mindmapNodes l, node.2 ≠ pyNormalize r.name := by
  have hkey : alistContains (buildRecordMap l) (pyNormalize r.name) = true :=
    (buildRecordMap_contains l (pyNormalize r.name)).mpr ⟨r, hr, rfl⟩
  have hedge : edgeOf (buildRecordMap l) r
      = some (pyNormalize r.name, pyNormalize r.name) := by
    simp only [edgeOf]
    rw [hself]
    rw [if_neg hnonempty, if_pos hty, if_pos hkey]
  have hown : pyNormalize r.name
      ∈ childrenOf (build_hierarchy l).1 (pyNormalize r.name) := by
    show pyNormalize r.name
      ∈ childrenOf (l.foldl (buildStep (buildRecordMap l)) []) (pyNormalize r.name)
    rw [mem_childrenOf_foldl]
    exact Or.inr ⟨r, hr, hedge⟩
  have hisroot : isRootIn (build_hierarchy l).1 (pyNormalize r.name) = false := by
    cases hb : isRootIn (build_hierarchy l).1 (pyNormalize r.name) with
    | false => rfl
    | true =>
      exfalso
      have hall := isRootIn_eq_true_iff.mp hb
      obtain ⟨cs, hcs⟩ : ∃ cs,
          alistLookup (build_hierarchy l).1 (pyNormalize r.name) = some cs := by
        cases hl : alistLookup (build_hierarchy l).1 (pyNormalize r.name) with
        | none =>
          unfold childrenOf at hown
          rw [hl] at hown
          simp at hown
        | some cs => exact ⟨cs, rfl⟩
      have hmem : pyNormalize r.name ∈ cs := by
        unfold childrenOf at hown
        rw [hcs] at hown
        simpa using hown
      exact hall (pyNormalize r.name, cs) (mem_of_alistLookup_eq hcs) hmem
  have hentry_ne : ∀ r' ∈ l, ∀ k v,
      rerootEntry (build_hierarchy l).1 r' = some (k, v) →
        k ≠ pyNormalize r.name ∧ v ≠ pyNormalize r.name := by
    intro r' hr' k v he
    obtain ⟨hk, hv, hroot⟩ := rerootEntry_eq_some he
    by_cases hrr : r' = r
    · subst hrr
      rw [hroot] at hisroot
      exact Bool.noConfusion hisroot
    · constructor
      · rw [hk]
        exact hnopoint r' hr' hrr
      · rw [hv]
        intro hv2
        exact hrr (huniq r' hr' hv2)
  have hnotroots : pyNormalize r.name
      ∉ find_root_records l (build_hierarchy l).1 := by
    rw [mem_find_root_records]
    rintro ⟨r', _, _, hnc⟩
    apply hnc
    rw [mem_allChildrenOf]
    obtain ⟨cs, hcs⟩ : ∃ cs,
        alistLookup (build_hierarchy l).1 (pyNormalize r.name) = some cs := by
      cases hl : alistLookup (build_hierarchy l).1 (pyNormalize r.name) with
      | none =>
        unfold childrenOf at hown
        rw [hl] at hown
        simp at hown
      | some cs => exact ⟨cs, rfl⟩
    refine ⟨(pyNormalize r.name, cs), mem_of_alistLookup_eq hcs, ?_⟩
    unfold childrenOf at hown
    rw [hcs] at hown
    simpa using hown
  have hnotmoved : pyNormalize r.name ∉ (rerootScan (build_hierarchy l).1 l).2 := by
    rw [rerootScan_eq]
    intro hm
    simp only [List.mem_map] at hm
    obtain ⟨p, hp, hps⟩ := hm
    obtain ⟨r', hr', he⟩ := List.mem_filterMap.mp hp
    exact (hentry_ne r' hr' p.1 p.2 (by rw [← he])).2 (by rw [hps])
  have hnotkeys : pyNormalize r.name
      ∉ ((rerootScan (build_hierarchy l).1 l).1.map Prod.fst) := by
    rw [rerootScan_eq]
    intro hm
    rw [ipFold_keys] at hm
    rcases hm with hm | ⟨p, hp, hps⟩
    · simp at hm
    · obtain ⟨r', hr', he⟩ := List.mem_filterMap.mp hp
      exact (hentry_ne r' hr' p.1 p.2 (by rw [← he])).1 hps
  have hnotfinal : pyNormalize r.name ∉ finalRoots l (build_hierarchy l).1
      (rerootScan (build_hierarchy l).1 l).1
      (rerootScan (build_hierarchy l).1 l).2 := by
    rw [mem_finalRoots]
    rintro (⟨h1, _⟩ | h1)
    · exact hnotroots h1
    · exact hnotkeys h1
  have hA : ∀ p c, c ∈ childrenOf (build_hierarchy l).1 p →
      c = pyNormalize r.name → p = pyNormalize r.name := by
    intro p c hc hcs
    have hc2 : c ∈ childrenOf (l.foldl (buildStep (buildRecordMap l)) []) p := hc
    rw [mem_childrenOf_foldl] at hc2
    rcases hc2 with h1 | ⟨r', hr', he⟩
    · simp [childrenOf, alistLookup] at h1
    · have hcname := edgeOf_child _ _ _ _ he
      have hr'eq : r' = r := huniq r' hr' (by rw [← hcname, hcs])
      subst hr'eq
      have := edgeOf_cname_parent _ _ _ _ hty he
      rw [this, hself]
  refine ⟨hown, hnotroots, hnotmoved, hnotfinal, ?_⟩
  intro node hnode
  rw [mindmapNodes_eq_flatMap] at hnode
  obtain ⟨root, hroot, hnr⟩ := List.mem_flatMap.mp hnode
  have hrootne : root ≠ pyNormalize r.name := by
    intro he
    exact hnotfinal (he ▸ hroot)
  obtain ⟨d, m⟩ := node
  show m ≠ pyNormalize r.name
  cases hl : alistLookup (rerootScan (build_hierarchy l).1 l).1 root with
  | none =>
    unfold renderRoot at hnr
    rw [hl] at hnr
    exact writeNode_avoids (build_hierarchy l).1 (pyNormalize r.name) hA
      (mindmapFuel l) root 0 [] hrootne d m hnr
  | some domains =>
    rw [renderRoot_eq_some _ _ _ _ hl] at hnr
    rcases List.mem_cons.mp hnr with h1 | h1
    · have h2 : m = root := congrArg Prod.snd h1
      exact h2 ▸ hrootne
    · obtain ⟨dom, hdom, hmem⟩ := List.mem_flatMap.mp h1
      have hdomne : dom ≠ pyNormalize r.name := by
        intro he
        have hdom2 := mem_sortStrings.mp hdom
        have hgetD := ipFold_lookup_getD
          (l.filterMap (rerootEntry (build_hierarchy l).1)) [] root
        rw [rerootScan_eq] at hl
        rw [show alistLookup
            ((l.filterMap (rerootEntry (build_hierarchy l).1)).foldl
              (fun m p => ipAppend m p.1 p.2) [],
             (l.filterMap (rerootEntry (build_hierarchy l).1)).map Prod.snd).1
            root = some domains from hl] at hgetD
        simp only [Option.getD_some, alistLookup, Option.getD_none] at hgetD
        rw [hgetD] at hdom2
        obtain ⟨p, hp, hps⟩ := List.mem_map.mp hdom2
        obtain ⟨r', hr', hre⟩ := List.mem_filterMap.mp (List.mem_of_mem_filter hp)
        exact (hentry_ne r' hr' p.1 p.2 (by rw [← hre])).2 (by rw [hps, he])
      exact writeNode_avoids (build_hierarchy l).1 (pyNormalize r.name) hA
        (mindmapFuel l) dom 1 [] hdomne d m hmem

/-- Witness for the amended C9: `s CNAME s` plus an unrelated root. -/
theorem self_cname_never_rendered_witness :
    pyNormalize (DNSRecord.mk "s" "CNAME" "s").name
        ∈ childrenOf (build_hierarchy [⟨"s", "CNAME", "s"⟩,
            ⟨"p", "A", "1.2.3.4"⟩]).1
          (pyNormalize (DNSRecord.mk "s" "CNAME" "s").name)
    ∧ pyNormalize (DNSRecord.mk "s" "CNAME" "s").name
        ∉ find_root_records [⟨"s", "CNAME", "s"⟩, ⟨"p", "A", "1.2.3.4"⟩]
          (build_hierarchy [⟨"s", "CNAME", "s"⟩, ⟨"p", "A", "1.2.3.4"⟩]).1
    ∧ pyNormalize (DNSRecord.mk "s" "CNAME" "s").name
        ∉ (rerootScan (build_hierarchy [⟨"s", "CNAME", "s"⟩,
            ⟨"p", "A", "1.2.3.4"⟩]).1
          [⟨"s", "CNAME", "s"⟩, ⟨"p", "A", "1.2.3.4"⟩]).2
    ∧ pyNormalize (DNSRecord.mk "s" "CNAME" "s").name
        ∉ finalRoots [⟨"s", "CNAME", "s"⟩, ⟨"p", "A", "1.2.3.4"⟩]
          (build_hierarchy [⟨"s", "CNAME", "s"⟩, ⟨"p", "A", "1.2.3.4"⟩]).1
          (rerootScan (build_hierarchy [⟨"s", "CNAME", "s"⟩,
            ⟨"p", "A", "1.2.3.4"⟩]).1
            [⟨"s", "CNAME", "s"⟩, ⟨"p", "A", "1.2.3.4"⟩]).1
          (rerootScan (build_hierarchy [⟨"s", "CNAME", "s"⟩,
            ⟨"p", "A", "1.2.3.4"⟩]).1
            [⟨"s", "CNAME", "s"⟩, ⟨"p", "A", "1.2.3.4"⟩]).2
    ∧ ∀ node ∈ mindmapNodes [⟨"s", "CNAME", "s"⟩, ⟨"p", "A", "1.2.3.4"⟩],
        node.2 ≠ pyNormalize (DNSRecord.mk "s" "CNAME" "s").name :=
  self_cname_never_rendered [⟨"s", "CNAME", "s"⟩, ⟨"p", "A", "1.2.3.4"⟩]
    ⟨"s", "CNAME", "s"⟩ (by decide) (by decide) (by decide) (by decide)
    (by decide) (by decide)

/-! ## Claim C4 -/

/-- C4 counterexample: the pipeline's normalizations are NOT the claimed
"lowercase, strip whitespace, strip a single trailing dot": root finding
(`find_root_records`, line 154) omits the whitespace strip — `" a"`
stays `" a"` there while the claimed normalization gives `"a"` — and even
in edge building `rstrip('.')` removes ALL trailing dots, so `"a.."`
becomes `"a"`, not the claimed `"a."`. Observably, a record named
`" A"` is rendered as the root `" a"` (unstripped), not `"a"`. -/
theorem normalization_counterexample :
    rootNameNormalize " a" = " a"
    ∧ specNormalize " a" = "a"
    ∧ rootNameNormalize " a" ≠ specNormalize " a"
    ∧ pyNormalize "a.." = "a"
    ∧ specNormalize "a.." = "a."
    ∧ pyNormalize "a.." ≠ specNormalize "a.."
    ∧ rootNameNormalize " a" ≠ pyNormalize " a"
    ∧ mindmapNodes [⟨" A", "TXT", "x"⟩] = [(0, " a")] := by
  refine ⟨by decide, by decide, by decide, by decide, by decide, by decide,
    by decide, by decide⟩

theorem bool_eq_of_true_iff {a b : Bool} (h : (a = true) ↔ (b = true)) :
    a = b := by
  cases a <;> cases b <;> simp_all

theorem exists_name_iff_of_forall₂ {l l' : List DNSRecord}
    (h : List.Forall₂ recordViewEq l l') (k : String) :
    (∃ r ∈ l, pyNormalize r.name = k) ↔ (∃ r' ∈ l', pyNormalize r'.name = k) := by
  induction h with
  | nil => simp
  | @cons a b as bs hab _ ih =>
    simp only [List.mem_cons]
    constructor
    · rintro ⟨r0, rfl | hr0, hk⟩
      · exact ⟨b, Or.inl rfl, by rw [← hab.2.1]; exact hk⟩
      · obtain ⟨r', hr', hk'⟩ := ih.mp ⟨r0, hr0, hk⟩
        exact ⟨r', Or.inr hr', hk'⟩
    · rintro ⟨r0, rfl | hr0, hk⟩
      · exact ⟨a, Or.inl rfl, by rw [hab.2.1]; exact hk⟩
      · obtain ⟨r', hr', hk'⟩ := ih.mpr ⟨r0, hr0, hk⟩
        exact ⟨r', Or.inr hr', hk'⟩

theorem edgeOf_congr (rm₁ rm₂ : RecordMap)
    (hc : ∀ k, alistContains rm₁ k = alistContains rm₂ k)
    {r r' : DNSRecord} (h : recordViewEq r r') :
    edgeOf rm₁ r = edgeOf rm₂ r' := by
  simp only [edgeOf, h.1, h.2.1, h.2.2.2, hc]

theorem foldl_buildStep_congr (rm₁ rm₂ : RecordMap)
    (hc : ∀ k, alistContains rm₁ k = alistContains rm₂ k) :
    ∀ {as bs : List DNSRecord}, List.Forall₂ recordViewEq as bs →
      ∀ cm0 : ChildrenMap,
        as.foldl (buildStep rm₁) cm0 = bs.foldl (buildStep rm₂) cm0 := by
  intro as bs hab
  induction hab with
  | nil => intro cm0; rfl
  | cons h1 _ ih =>
    intro cm0
    rw [List.foldl_cons, List.foldl_cons]
    rw [show buildStep rm₁ cm0 _ = buildStep rm₂ cm0 _ by
      unfold buildStep
      rw [edgeOf_congr rm₁ rm₂ hc h1]]
    exact ih _

theorem find_root_records_congr {l l' : List DNSRecord}
    (h : List.Forall₂ recordViewEq l l') (cm : ChildrenMap) :
    find_root_records l cm = find_root_records l' cm := by
  simp only [find_root_records]
  have hfm : l.filterMap (fun r =>
        if rootNameNormalize r.name ∈ allChildrenOf cm then none
        else some (rootNameNormalize r.name))
      = l'.filterMap (fun r =>
        if rootNameNormalize r.name ∈ allChildrenOf cm then none
        else some (rootNameNormalize r.name)) := by
    induction h with
    | nil => rfl
    | @cons a b as bs hab _ ih =>
      rw [List.filterMap_cons, List.filterMap_cons]
      rw [show (if rootNameNormalize a.name ∈ allChildrenOf cm then none
          else some (rootNameNormalize a.name))
        = (if rootNameNormalize b.name ∈ allChildrenOf cm then none
          else some (rootNameNormalize b.name)) by rw [hab.2.2.1]]
      rw [ih]
  rw [hfm]

theorem rerootEntry_congr (cm : ChildrenMap) {r r' : DNSRecord}
    (h : recordViewEq r r') : rerootEntry cm r = rerootEntry cm r' := by
  simp only [rerootEntry, h.1, h.2.1, h.2.2.2]

theorem filterMap_rerootEntry_congr (cm : ChildrenMap) :
    ∀ {as bs : List DNSRecord}, List.Forall₂ recordViewEq as bs →
      as.filterMap (rerootEntry cm) = bs.filterMap (rerootEntry cm) := by
  intro as bs hab
  induction hab with
  | nil => rfl
  | cons h1 _ ih =>
    rw [List.filterMap_cons, List.filterMap_cons, rerootEntry_congr cm h1, ih]

/-- C4 amended: the actual normalizations are `lower ∘ strip ∘ rstrip-all-
dots` for edge building and re-rooting (both name and content), but root
finding normalizes the name WITHOUT the whitespace strip. The pipeline
reads records only through these normalizations and the raw type, so two
record lists that agree pointwise on all of them (in particular, lists
differing only in letter case or trailing dots of names/contents) render
identically. -/
theorem normalization_respected (l l' : List DNSRecord)
    (h : List.Forall₂ recordViewEq l l') :
    mindmapNodes l = mindmapNodes l' ∧ mindmapLines l = mindmapLines l' := by
  have hcontains : ∀ k, alistContains (buildRecordMap l) k
      = alistContains (buildRecordMap l') k := by
    intro k
    exact bool_eq_of_true_iff (by
      rw [buildRecordMap_contains, buildRecordMap_contains]
      exact exists_name_iff_of_forall₂ h k)
  have hcm : (build_hierarchy l).1 = (build_hierarchy l').1 := by
    show l.foldl (buildStep (buildRecordMap l)) []
      = l'.foldl (buildStep (buildRecordMap l')) []
    exact foldl_buildStep_congr _ _ hcontains h []
  have hroots0 : find_root_records l (build_hierarchy l).1
      = find_root_records l' (build_hierarchy l').1 := by
    rw [hcm]
    exact find_root_records_congr h _
  have hscan : rerootScan (build_hierarchy l).1 l
      = rerootScan (build_hierarchy l').1 l' := by
    rw [rerootScan_eq, rerootScan_eq, hcm, filterMap_rerootEntry_congr _ h]
  have hfuel : mindmapFuel l = mindmapFuel l' := by
    unfold mindmapFuel
    rw [h.length_eq]
  have hfr : finalRoots l (build_hierarchy l).1
        (rerootScan (build_hierarchy l).1 l).1
        (rerootScan (build_hierarchy l).1 l).2
      = finalRoots l' (build_hierarchy l').1
        (rerootScan (build_hierarchy l').1 l').1
        (rerootScan (build_hierarchy l').1 l').2 := by
    simp only [finalRoots]
    rw [hroots0, hscan]
  have hnodes : mindmapNodes l = mindmapNodes l' := by
    rw [mindmapNodes_eq_flatMap, mindmapNodes_eq_flatMap, hfr, hscan, hcm, hfuel]
  exact ⟨hnodes, by unfold mindmapLines; rw [hnodes]⟩

/-- Witness for the amended C4: `Example.COM.` and `example.com` denote
the same node and render identically. -/
theorem normalization_respected_witness :
    mindmapNodes [⟨"Example.COM.", "A", "1.2.3.4"⟩]
        = mindmapNodes [⟨"example.com", "A", "1.2.3.4"⟩]
      ∧ mindmapLines [⟨"Example.COM.", "A", "1.2.3.4"⟩]
        = mindmapLines [⟨"example.com", "A", "1.2.3.4"⟩] :=
  normalization_respected [⟨"Example.COM.", "A", "1.2.3.4"⟩]
    [⟨"example.com", "A", "1.2.3.4"⟩]
    (List.Forall₂.cons ⟨rfl, by decide, by decide, rfl⟩ List.Forall₂.nil)

/-! ## Observations of the built maps, for permutation invariance -/

theorem lookup_isSome_foldl (rm : RecordMap) (l : List DNSRecord) :
    ∀ (cm0 : ChildrenMap) (p : String),
      (alistLookup (l.foldl (buildStep rm) cm0) p).isSome = true
        ↔ (alistLookup cm0 p).isSome = true
            ∨ ∃ r ∈ l, ∃ c, edgeOf rm r = some (p, c) := by
  induction l with
  | nil => intro cm0 p; simp
  | cons r rs ih =>
    intro cm0 p
    rw [List.foldl_cons]
    cases he : edgeOf rm r with
    | none =>
      rw [show buildStep rm cm0 r = cm0 by simp [buildStep, he]]
      rw [ih]
      simp [he]
    | some pc =>
      obtain ⟨ep, ec⟩ := pc
      rw [show buildStep rm cm0 r = addEdge cm0 ep ec by simp [buildStep, he]]
      rw [ih]
      have hlook : (alistLookup (addEdge cm0 ep ec) p).isSome = true
          ↔ p = ep ∨ (alistLookup cm0 p).isSome = true := by
        rw [alistLookup_addEdge]
        by_cases hp : ep = p
        · simp [hp]
        · have hp2 : ¬ p = ep := fun h2 => hp h2.symm
          simp [hp, hp2]
      rw [hlook]
      simp only [List.mem_cons]
      constructor
      · rintro ((h | h) | ⟨r', hr', c, he'⟩)
        · exact Or.inr ⟨r, Or.inl rfl, ec, by rw [he, h]⟩
        · exact Or.inl h
        · exact Or.inr ⟨r', Or.inr hr', c, he'⟩
      · rintro (h | ⟨r', hr' | hr', c, he'⟩)
        · exact Or.inl (Or.inr h)
        · subst hr'
          rw [he] at he'
          have h2 := Option.some.inj he'
          rw [Prod.mk.injEq] at h2
          exact Or.inl (Or.inl h2.1.symm)
        · exact Or.inr ⟨r', hr', c, he'⟩

theorem exists_child_iff (cm : ChildrenMap)
    (hnd : (cm.map Prod.fst).Nodup) (n : String) :
    (∃ e ∈ cm, n ∈ e.2) ↔ ∃ p, n ∈ childrenOf cm p := by
  constructor
  · rintro ⟨e, he, hn⟩
    refine ⟨e.1, ?_⟩
    unfold childrenOf
    rw [alistLookup_eq_of_mem hnd (by exact he)]
    exact hn
  · rintro ⟨p, hp⟩
    unfold childrenOf at hp
    cases hl : alistLookup cm p with
    | none => rw [hl] at hp; simp at hp
    | some cs =>
      rw [hl] at hp
      exact ⟨(p, cs), mem_of_alistLookup_eq hl, by simpa using hp⟩

theorem ipAppend_keys_nodup {m : List (String × List String)} {k v : String}
    (h : (m.map Prod.fst).Nodup) : ((ipAppend m k v).map Prod.fst).Nodup := by
  cases hl : alistLookup m k with
  | none =>
    simp only [ipAppend, hl, List.map_append]
    simp only [List.map]
    rw [List.nodup_append]
    refine ⟨h, List.nodup_singleton k, ?_⟩
    intro x hx hx'
    simp only [List.mem_singleton] at hx'
    subst hx'
    have h2 := (alistLookup_isSome_iff_mem_keys m x).mpr hx
    rw [hl] at h2
    exact Bool.noConfusion h2
  | some vs =>
    simp only [ipAppend, hl]
    rw [alistInsert_keys_of_contains]
    · exact h
    · simp [alistContains, hl]

theorem ipFold_keys_nodup :
    ∀ (ps : List (String × String)) (m : List (String × List String)),
      (m.map Prod.fst).Nodup →
      (((ps.foldl (fun m p => ipAppend m p.1 p.2) m)).map Prod.fst).Nodup := by
  intro ps
  induction ps with
  | nil => intro m h; exact h
  | cons p ps ih =>
    intro m h
    rw [List.foldl_cons]
    exact ih _ (ipAppend_keys_nodup h)

theorem writeChildrenF_congr
    (f₁ f₂ : String → Nat → List String → List (Nat × String) × List String)
    (hf : ∀ c lv vis, f₁ c lv vis = f₂ c lv vis) :
    ∀ (cs : List String) (lv : Nat) (vis : List String),
      writeChildrenF f₁ cs lv vis = writeChildrenF f₂ cs lv vis := by
  intro cs
  induction cs with
  | nil => intro lv vis; rfl
  | cons c cs ih =>
    intro lv vis
    rw [writeChildrenF_cons, writeChildrenF_cons, hf, ih]

theorem writeNode_congr (cm₁ cm₂ : ChildrenMap)
    (h : ∀ n, (alistLookup cm₁ n).map sortStrings
        = (alistLookup cm₂ n).map sortStrings) :
    ∀ (fuel : Nat) (name : String) (level : Nat) (visited : List String),
      writeNode cm₁ fuel name level visited
        = writeNode cm₂ fuel name level visited := by
  intro fuel
  induction fuel with
  | zero => intro name level visited; rfl
  | succ fuel ih =>
    intro name level visited
    by_cases hm : name ∈ visited
    · rw [writeNode_succ_mem cm₁ hm, writeNode_succ_mem cm₂ hm]
    · cases h1 : alistLookup cm₁ name with
      | none =>
        have h2 : alistLookup cm₂ name = none := by
          have := h name
          rw [h1] at this
          simp only [Option.map_none'] at this
          cases h3 : alistLookup cm₂ name with
          | none => rfl
          | some cs =>
            rw [h3] at this
            exact Option.noConfusion this.symm
        rw [writeNode_succ_none cm₁ hm h1, writeNode_succ_none cm₂ hm h2]
      | some cs =>
        obtain ⟨cs₂, h2, hsort⟩ : ∃ cs₂, alistLookup cm₂ name = some cs₂
            ∧ sortStrings cs = sortStrings cs₂ := by
          have := h name
          rw [h1] at this
          cases h3 : alistLookup cm₂ name with
          | none =>
            rw [h3] at this
            exact Option.noConfusion this
          | some cs₂ =>
            rw [h3] at this
            exact ⟨cs₂, rfl, Option.some.inj this⟩
        rw [writeNode_succ_some cm₁ hm h1, writeNode_succ_some cm₂ hm h2, hsort]
        rw [writeChildrenF_congr _ _ (fun c lv vis => ih c lv vis)]

theorem flatMap_congr_left {α β : Type} {f g : α → List β} :
    ∀ {l : List α}, (∀ a ∈ l, f a = g a) → l.flatMap f = l.flatMap g := by
  intro l
  induction l with
  | nil => intro _; rfl
  | cons a as ih =>
    intro h
    rw [List.flatMap_cons, List.flatMap_cons, h a (List.mem_cons_self a as),
      ih (fun a' ha' => h a' (List.mem_cons_of_mem a ha'))]

theorem renderRoot_congr (cm₁ cm₂ : ChildrenMap)
    (ipm₁ ipm₂ : List (String × List String)) (fuel : Nat) (root : String)
    (hcm : ∀ n, (alistLookup cm₁ n).map sortStrings
        = (alistLookup cm₂ n).map sortStrings)
    (hipm : (alistLookup ipm₁ root).map sortStrings
        = (alistLookup ipm₂ root).map sortStrings) :
    renderRoot cm₁ ipm₁ fuel root = renderRoot cm₂ ipm₂ fuel root := by
  cases h1 : alistLookup ipm₁ root with
  | none =>
    have h2 : alistLookup ipm₂ root = none := by
      rw [h1] at hipm
      simp only [Option.map_none'] at hipm
      cases h3 : alistLookup ipm₂ root with
      | none => rfl
      | some ds =>
        rw [h3] at hipm
        exact Option.noConfusion hipm.symm
    unfold renderRoot
    rw [h1, h2, writeNode_congr cm₁ cm₂ hcm]
  | some ds =>
    obtain ⟨ds₂, h2, hsort⟩ : ∃ ds₂, alistLookup ipm₂ root = some ds₂
        ∧ sortStrings ds = sortStrings ds₂ := by
      rw [h1] at hipm
      cases h3 : alistLookup ipm₂ root with
      | none =>
        rw [h3] at hipm
        exact Option.noConfusion hipm
      | some ds₂ =>
        rw [h3] at hipm
        exact ⟨ds₂, rfl, Option.some.inj hipm⟩
    rw [renderRoot_eq_some _ _ _ _ h1, renderRoot_eq_some _ _ _ _ h2, hsort]
    congr 1
    exact flatMap_congr_left
      (fun d _ => by rw [writeNode_congr cm₁ cm₂ hcm])

/-! ## Sibling order -/

theorem writeChildrenF_filter_sublist (cm : ChildrenMap) (fuel : Nat) :
    ∀ (cs : List String) (lv : Nat) (vis : List String),
      (((writeChildrenF (fun c l v => writeNode cm fuel c l v) cs lv vis).1.filter
          (fun p => decide (p.1 = lv))).map Prod.snd).Sublist cs := by
  intro cs
  induction cs with
  | nil =>
    intro lv vis
    simp [writeChildrenF_nil]
  | cons c cs ih =>
    intro lv vis
    rw [writeChildrenF_cons]
    dsimp only
    rw [List.filter_append, List.map_append]
    rw [writeNode_filter_level cm fuel c lv vis]
    by_cases hc : fuel ≠ 0 ∧ c ∉ vis
    · rw [if_pos hc]
      simp only [List.map_cons, List.map_nil, List.singleton_append]
      exact (ih lv _).cons₂ c
    · rw [if_neg hc]
      simp only [List.map_nil, List.nil_append]
      exact (ih lv _).cons c

theorem writeNode_children_sorted (cm : ChildrenMap) (fuel : Nat)
    (name : String) (level : Nat) (visited : List String) :
    (((writeNode cm fuel name level visited).1.filter
        (fun p => decide (p.1 = level + 1))).map Prod.snd).Sorted
      (fun a b => strLe a b = true) := by
  cases fuel with
  | zero => simp [writeNode_zero]
  | succ fuel =>
    by_cases hm : name ∈ visited
    · rw [writeNode_succ_mem cm hm]
      simp
    · cases hcs : alistLookup cm name with
      | none =>
        rw [writeNode_succ_none cm hm hcs]
        show ((([(level, name)] : List (Nat × String)).filter
            (fun p => decide (p.1 = level + 1))).map Prod.snd).Sorted _
        rw [List.filter_cons, if_neg (by simp)]
        exact List.sorted_nil
      | some cs =>
        rw [writeNode_succ_some cm hm hcs]
        dsimp only
        rw [List.filter_cons, if_neg (by simp)]
        have hsub := writeChildrenF_filter_sublist cm fuel (sortStrings cs)
          (level + 1) (name :: visited)
        exact List.Pairwise.sublist hsub (sortStrings_sorted cs)

theorem find_root_records_nodup (records : List DNSRecord) (cm : ChildrenMap) :
    (find_root_records records cm).Nodup :=
  sortStrings_nodup (List.nodup_dedup _)

theorem find_root_records_sorted (records : List DNSRecord) (cm : ChildrenMap) :
    (find_root_records records cm).Sorted (fun a b => strLe a b = true) :=
  sortStrings_sorted _

theorem finalRoots_nodup (records : List DNSRecord) (cm : ChildrenMap)
    (ipm : List (String × List String)) (moved : List String) :
    (finalRoots records cm ipm moved).Nodup :=
  sortStrings_nodup (List.nodup_dedup _)

theorem finalRoots_sorted (records : List DNSRecord) (cm : ChildrenMap)
    (ipm : List (String × List String)) (moved : List String) :
    (finalRoots records cm ipm moved).Sorted (fun a b => strLe a b = true) :=
  sortStrings_sorted _

/-! ## Claim C7 -/

/-- C7: the rendered output is deterministic and independent of the input
record order: permuted record lists produce identical output nodes and
lines; moreover the direct children emitted below any node appear in
lexicographic order (the depth-`level+1` entries of any `write_hierarchy`
call are sorted), and the final root list itself is sorted. -/
theorem render_order_independent (l l' : List DNSRecord) (h : l.Perm l') :
    mindmapNodes l = mindmapNodes l'
    ∧ mindmapLines l = mindmapLines l'
    ∧ (∀ (fuel : Nat) (name : String) (level : Nat) (visited : List String),
        (((writeNode (build_hierarchy l).1 fuel name level visited).1.filter
            (fun p => decide (p.1 = level + 1))).map Prod.snd).Sorted
          (fun a b => strLe a b = true))
    ∧ (finalRoots l (build_hierarchy l).1
        (rerootScan (build_hierarchy l).1 l).1
        (rerootScan (build_hierarchy l).1 l).2).Sorted
        (fun a b => strLe a b = true) := by
  have hcont : ∀ k, alistContains (buildRecordMap l) k
      = alistContains (buildRecordMap l') k := by
    intro k
    apply bool_eq_of_true_iff
    rw [buildRecordMap_contains, buildRecordMap_contains]
    constructor
    · rintro ⟨r, hr, hk⟩
      exact ⟨r, h.mem_iff.mp hr, hk⟩
    · rintro ⟨r, hr, hk⟩
      exact ⟨r, h.mem_iff.mpr hr, hk⟩
  have hedge : ∀ r, edgeOf (buildRecordMap l) r = edgeOf (buildRecordMap l') r :=
    fun r => edgeOf_congr _ _ hcont ⟨rfl, rfl, rfl, rfl⟩
  have hknd : (((build_hierarchy l).1).map Prod.fst).Nodup :=
    build_keys_nodup _ l [] (by simp)
  have hknd' : (((build_hierarchy l').1).map Prod.fst).Nodup :=
    build_keys_nodup _ l' [] (by simp)
  have hcnd : ∀ e ∈ (build_hierarchy l).1, e.2.Nodup :=
    build_children_nodup _ l [] (by simp)
  have hcnd' : ∀ e ∈ (build_hierarchy l').1, e.2.Nodup :=
    build_children_nodup _ l' [] (by simp)
  have hmemc : ∀ p c, c ∈ childrenOf (build_hierarchy l).1 p
      ↔ c ∈ childrenOf (build_hierarchy l').1 p := by
    intro p c
    show c ∈ childrenOf (l.foldl (buildStep (buildRecordMap l)) []) p
      ↔ c ∈ childrenOf (l'.foldl (buildStep (buildRecordMap l')) []) p
    rw [mem_childrenOf_foldl, mem_childrenOf_foldl]
    constructor
    · rintro (h1 | ⟨r, hr, he⟩)
      · simp [childrenOf, alistLookup] at h1
      · exact Or.inr ⟨r, h.mem_iff.mp hr, by rw [← hedge r]; exact he⟩
    · rintro (h1 | ⟨r, hr, he⟩)
      · simp [childrenOf, alistLookup] at h1
      · exact Or.inr ⟨r, h.mem_iff.mpr hr, by rw [hedge r]; exact he⟩
  have hkeys : ∀ p, (alistLookup ((build_hierarchy l).1) p).isSome
      = (alistLookup ((build_hierarchy l').1) p).isSome := by
    intro p
    apply bool_eq_of_true_iff
    show (alistLookup (l.foldl (buildStep (buildRecordMap l)) []) p).isSome = true
      ↔ (alistLookup (l'.foldl (buildStep (buildRecordMap l')) []) p).isSome = true
    rw [lookup_isSome_foldl, lookup_isSome_foldl]
    constructor
    · rintro (h1 | ⟨r, hr, c, he⟩)
      · simp [alistLookup] at h1
      · exact Or.inr ⟨r, h.mem_iff.mp hr, c, by rw [← hedge r]; exact he⟩
    · rintro (h1 | ⟨r, hr, c, he⟩)
      · simp [alistLookup] at h1
      · exact Or.inr ⟨r, h.mem_iff.mpr hr, c, by rw [hedge r]; exact he⟩
  have hobs : ∀ n, (alistLookup ((build_hierarchy l).1) n).map sortStrings
      = (alistLookup ((build_hierarchy l').1) n).map sortStrings := by
    intro n
    cases h1 : alistLookup ((build_hierarchy l).1) n with
    | none =>
      cases h2 : alistLookup ((build_hierarchy l').1) n with
      | none => rfl
      | some cs =>
        have hk := hkeys n
        rw [h1, h2] at hk
        exact absurd hk (by simp)
    | some cs =>
      cases h2 : alistLookup ((build_hierarchy l').1) n with
      | none =>
        have hk := hkeys n
        rw [h1, h2] at hk
        exact absurd hk (by simp)
      | some cs' =>
        simp only [Option.map_some']
        congr 1
        apply sortStrings_eq_of_nodup_of_mem_iff
        · exact hcnd (n, cs) (mem_of_alistLookup_eq h1)
        · exact hcnd' (n, cs') (mem_of_alistLookup_eq h2)
        · intro x
          have hm := hmemc n x
          unfold childrenOf at hm
          rw [h1, h2] at hm
          simpa using hm
  have hroot : ∀ n, isRootIn ((build_hierarchy l).1) n
      = isRootIn ((build_hierarchy l').1) n := by
    intro n
    apply bool_eq_of_true_iff
    rw [isRootIn_eq_true_iff, isRootIn_eq_true_iff]
    constructor
    · intro hall e' he' hn
      have hex : ∃ e ∈ (build_hierarchy l').1, n ∈ e.2 := ⟨e', he', hn⟩
      rw [exists_child_iff _ hknd' n] at hex
      obtain ⟨p, hp⟩ := hex
      rw [← hmemc p n] at hp
      obtain ⟨e, he, hne⟩ := (exists_child_iff _ hknd n).mpr ⟨p, hp⟩
      exact hall e he hne
    · intro hall e' he' hn
      have hex : ∃ e ∈ (build_hierarchy l).1, n ∈ e.2 := ⟨e', he', hn⟩
      rw [exists_child_iff _ hknd n] at hex
      obtain ⟨p, hp⟩ := hex
      rw [hmemc p n] at hp
      obtain ⟨e, he, hne⟩ := (exists_child_iff _ hknd' n).mpr ⟨p, hp⟩
      exact hall e he hne
  have hallc : ∀ x, x ∈ allChildrenOf ((build_hierarchy l).1)
      ↔ x ∈ allChildrenOf ((build_hierarchy l').1) := by
    intro x
    rw [mem_allChildrenOf, mem_allChildrenOf]
    rw [exists_child_iff _ hknd x, exists_child_iff _ hknd' x]
    constructor
    · rintro ⟨p, hp⟩
      exact ⟨p, (hmemc p x).mp hp⟩
    · rintro ⟨p, hp⟩
      exact ⟨p, (hmemc p x).mpr hp⟩
  have hroots0 : find_root_records l ((build_hierarchy l).1)
      = find_root_records l' ((build_hierarchy l').1) := by
    apply List.eq_of_perm_of_sorted _ (find_root_records_sorted _ _)
      (find_root_records_sorted _ _)
    apply (List.perm_ext_iff_of_nodup (find_root_records_nodup _ _)
      (find_root_records_nodup _ _)).mpr
    intro x
    rw [mem_find_root_records, mem_find_root_records]
    constructor
    · rintro ⟨r, hr, hx, hnc⟩
      exact ⟨r, h.mem_iff.mp hr, hx, fun hc => hnc ((hallc x).mpr hc)⟩
    · rintro ⟨r, hr, hx, hnc⟩
      exact ⟨r, h.mem_iff.mpr hr, hx, fun hc => hnc ((hallc x).mp hc)⟩
  have hreF : rerootEntry ((build_hierarchy l).1)
      = rerootEntry ((build_hierarchy l').1) := by
    funext r
    simp only [rerootEntry, hroot]
  have hentries : (l.filterMap (rerootEntry ((build_hierarchy l).1))).Perm
      (l'.filterMap (rerootEntry ((build_hierarchy l').1))) := by
    rw [← hreF]
    exact h.filterMap _
  have hkeysiff : ∀ k,
      (k ∈ ((rerootScan ((build_hierarchy l).1) l).1).map Prod.fst)
        ↔ (k ∈ ((rerootScan ((build_hierarchy l').1) l').1).map Prod.fst) := by
    intro k
    rw [rerootScan_eq, rerootScan_eq]
    dsimp only
    rw [ipFold_keys, ipFold_keys]
    simp only [List.map_nil, List.not_mem_nil, false_or]
    constructor
    · rintro ⟨p, hp, hpk⟩
      exact ⟨p, hentries.mem_iff.mp hp, hpk⟩
    · rintro ⟨p, hp, hpk⟩
      exact ⟨p, hentries.mem_iff.mpr hp, hpk⟩
  have hipm_obs : ∀ k,
      (alistLookup ((rerootScan ((build_hierarchy l).1) l).1) k).map sortStrings
      = (alistLookup ((rerootScan ((build_hierarchy l').1) l').1) k).map
          sortStrings := by
    intro k
    have hv : sortStrings
        ((alistLookup ((rerootScan ((build_hierarchy l).1) l).1) k).getD [])
        = sortStrings
          ((alistLookup ((rerootScan ((build_hierarchy l').1) l').1) k).getD
            []) := by
      rw [rerootScan_eq, rerootScan_eq]
      dsimp only
      rw [ipFold_lookup_getD, ipFold_lookup_getD]
      simp only [alistLookup, Option.getD_none, List.nil_append]
      exact sortStrings_eq_of_perm ((hentries.filter _).map _)
    cases h1 : alistLookup ((rerootScan ((build_hierarchy l).1) l).1) k with
    | none =>
      cases h2 : alistLookup ((rerootScan ((build_hierarchy l').1) l').1) k with
      | none => rfl
      | some vs =>
        exfalso
        have hmem2 : k ∈ ((rerootScan ((build_hierarchy l').1) l').1).map
            Prod.fst :=
          (alistLookup_isSome_iff_mem_keys _ k).mp (by rw [h2]; rfl)
        have hmem1 := (hkeysiff k).mpr hmem2
        have := (alistLookup_isSome_iff_mem_keys _ k).mpr hmem1
        rw [h1] at this
        exact Bool.noConfusion this
    | some vs =>
      cases h2 : alistLookup ((rerootScan ((build_hierarchy l').1) l').1) k with
      | none =>
        exfalso
        have hmem1 : k ∈ ((rerootScan ((build_hierarchy l).1) l).1).map
            Prod.fst :=
          (alistLookup_isSome_iff_mem_keys _ k).mp (by rw [h1]; rfl)
        have hmem2 := (hkeysiff k).mp hmem1
        have := (alistLookup_isSome_iff_mem_keys _ k).mpr hmem2
        rw [h2] at this
        exact Bool.noConfusion this
      | some vs' =>
        simp only [Option.map_some']
        congr 1
        rw [h1, h2] at hv
        simpa using hv
  have hmoved : ∀ x, x ∈ (rerootScan ((build_hierarchy l).1) l).2
      ↔ x ∈ (rerootScan ((build_hierarchy l').1) l').2 := by
    intro x
    rw [rerootScan_eq, rerootScan_eq]
    dsimp only
    exact (hentries.map Prod.snd).mem_iff
  have hfr : finalRoots l ((build_hierarchy l).1)
        ((rerootScan ((build_hierarchy l).1) l).1)
        ((rerootScan ((build_hierarchy l).1) l).2)
      = finalRoots l' ((build_hierarchy l').1)
        ((rerootScan ((build_hierarchy l').1) l').1)
        ((rerootScan ((build_hierarchy l').1) l').2) := by
    apply List.eq_of_perm_of_sorted _ (finalRoots_sorted _ _ _ _)
      (finalRoots_sorted _ _ _ _)
    apply (List.perm_ext_iff_of_nodup (finalRoots_nodup _ _ _ _)
      (finalRoots_nodup _ _ _ _)).mpr
    intro x
    rw [mem_finalRoots, mem_finalRoots, hroots0]
    constructor
    · rintro (⟨h1, h2⟩ | h1)
      · exact Or.inl ⟨h1, fun hm => h2 ((hmoved x).mpr hm)⟩
      · exact Or.inr ((hkeysiff x).mp h1)
    · rintro (⟨h1, h2⟩ | h1)
      · exact Or.inl ⟨h1, fun hm => h2 ((hmoved x).mp hm)⟩
      · exact Or.inr ((hkeysiff x).mpr h1)
  have hfuel : mindmapFuel l = mindmapFuel l' := by
    unfold mindmapFuel
    rw [h.length_eq]
  have hnodes : mindmapNodes l = mindmapNodes l' := by
    rw [mindmapNodes_eq_flatMap, mindmapNodes_eq_flatMap]
    rw [← hfr, ← hfuel]
    exact flatMap_congr_left (fun root _ =>
      renderRoot_congr _ _ _ _ (mindmapFuel l) root hobs (hipm_obs root))
  refine ⟨hnodes, by unfold mindmapLines; rw [hnodes],
    fun fuel name level visited =>
      writeNode_children_sorted _ fuel name level visited,
    finalRoots_sorted _ _ _ _⟩

/-- Witness for C7: swapping the two records of the C3 example changes
nothing, and the depth-1 children below `example.com` are sorted. -/
theorem render_order_independent_witness :
    mindmapNodes [⟨"www", "CNAME", "example.com"⟩,
        ⟨"example.com", "A", "1.2.3.4"⟩]
      = mindmapNodes [⟨"example.com", "A", "1.2.3.4"⟩,
        ⟨"www", "CNAME", "example.com"⟩]
    ∧ (((writeNode (build_hierarchy [⟨"www", "CNAME", "example.com"⟩,
          ⟨"example.com", "A", "1.2.3.4"⟩]).1 3 "example.com" 0 []).1.filter
        (fun p => decide (p.1 = 0 + 1))).map Prod.snd).Sorted
      (fun a b => strLe a b = true) := by
  have h := render_order_independent
    [⟨"www", "CNAME", "example.com"⟩, ⟨"example.com", "A", "1.2.3.4"⟩]
    [⟨"example.com", "A", "1.2.3.4"⟩, ⟨"www", "CNAME", "example.com"⟩]
    (List.Perm.swap (DNSRecord.mk "example.com" "A" "1.2.3.4")
      (DNSRecord.mk "www" "CNAME" "example.com") [])
  exact ⟨h.1, h.2.2.1 3 "example.com" 0 []⟩
